import Mathlib

/-!
# rmw_dps_cpp: discovery decoding and the graph cache of `NodeListener`

A shallow embedding of `rmw_dps_cpp/include/rmw_dps_cpp/custom_node_info.hpp`:

* `std::string` is a list of characters (`Str`), `std::vector` a list;
* `std::string::npos` is `none` in an `Option Nat` position;
* `size_t` subtraction wraps modulo `2 ^ 64` (`sizeSub`);
* `std::map<std::string, T>` is its in-order traversal, an association list
  kept in ascending key order by `SMap.assign`;
* `std::set<std::string>` is its in-order traversal, a list kept ascending and
  duplicate free by `StrSet.insert`;
* the calls into the middleware made by `onPublication` (`_advertise`,
  `rmw_trigger_guard_condition`) and the scope of its `std::lock_guard` are
  recorded as a trace of `Event`s.
-/

namespace RmwDps

/-! ## Strings -/

/-- A `std::string`, as the list of its characters. -/
abbrev Str := List Char

/-- The modulus of `size_t` arithmetic. -/
def SIZE_MOD : Nat := 18446744073709551616

/-- The difference `a - b` of two `size_t` values; it wraps around. -/
def sizeSub (a b : Nat) : Nat := (a + SIZE_MOD - b) % SIZE_MOD

/-- The scan of `std::string::find`: `s` is what is left of the string from
index `i` on; the result is the first index at which `pat` starts. -/
def findAux (pat : Str) : Str → Nat → Option Nat
  | [], i => if pat = [] then some i else none
  | c :: t, i => if pat.isPrefixOf (c :: t) then some i else findAux pat t (i + 1)

/-- The call `s.find(pat, pos)`: the first index `≥ pos` at which `pat` occurs in `s`,
`none` for `npos`. -/
def find (s pat : Str) (pos : Nat) : Option Nat :=
  if pos ≤ s.length then findAux pat (s.drop pos) pos else none

/-- The call `s.substr(pos, n)`: at most `n` characters from index `pos` on. Every
call site has `pos ≤ s.size()`, so the call does not throw. -/
def substr (s : Str) (pos n : Nat) : Str := (s.drop pos).take n

/-- The call `s.substr(pos)`: the characters from index `pos` to the end. -/
def substrFrom (s : Str) (pos : Nat) : Str := s.drop pos

/-- The order `operator<` of `std::string`: lexicographic, a proper prefix first. -/
def strLt : Str → Str → Bool
  | [], [] => false
  | [], _ :: _ => true
  | _ :: _, [] => false
  | a :: s, b :: t => decide (a < b) || (decide (a = b) && strLt s t)

/-! ## The data model -/

/-- The struct `NodeListener::Topic`. -/
structure Topic where
  topic : Str := []
  types : List Str := []
  deriving DecidableEq, Repr

/-- The struct `NodeListener::Node`; its constructor sets `namespace_` to `"/"`. -/
structure Node where
  name : Str := []
  namespace_ : Str := ['/']
  subscribers : List Topic := []
  publishers : List Topic := []
  services : List Topic := []
  deriving DecidableEq, Repr

/-- The comparison `operator==` of two `std::vector`s: same size and equal elements. -/
def vecEq {α : Type} (eq : α → α → Bool) : List α → List α → Bool
  | [], [] => true
  | a :: s, b :: t => eq a b && vecEq eq s t
  | _, _ => false

/-- The comparison `Topic::operator==`. -/
def Topic.eq (a b : Topic) : Bool :=
  decide (a.topic = b.topic) && vecEq (fun x y : Str => decide (x = y)) a.types b.types

/-- The comparison `Node::operator==`. -/
def Node.eq (a b : Node) : Bool :=
  decide (a.name = b.name) &&
  decide (a.namespace_ = b.namespace_) &&
  vecEq Topic.eq a.subscribers b.subscribers &&
  vecEq Topic.eq a.publishers b.publishers &&
  vecEq Topic.eq a.services b.services

/-- The six prefix constants declared in `rmw_dps_cpp/names_common.hpp`, a header that
is not part of the sources at hand; the code is embedded for arbitrary values. -/
structure Prefixes where
  dps_uuid_prefix : Str
  dps_namespace_prefix : Str
  dps_name_prefix : Str
  dps_subscriber_prefix : Str
  dps_publisher_prefix : Str
  dps_service_prefix : Str
  deriving DecidableEq, Repr

/-- The literal `"&types="`. -/
def typesMarker : Str := ['&', 't', 'y', 'p', 'e', 's', '=']

/-! ## Decoding an advertisement -/

/-- The `while (pos != npos)` loop of `process_topic_info`: `pos` is the loop variable,
`types` the vector `topic.types`. The loop is bounded by `fuel`; `none` means that the
bound was reached before the loop ended. -/
def typesLoop (topic_str : Str) : Nat → Option Nat → List Str → Option (List Str)
  | _, none, types => some types
  | 0, some _, _ => none
  | fuel + 1, some pos, types =>
    match find topic_str [','] pos with
    | some end_pos =>
      typesLoop topic_str fuel (some (end_pos + 1))
        (types ++ [substr topic_str pos (sizeSub end_pos pos)])
    | none =>
      typesLoop topic_str fuel none (types ++ [substrFrom topic_str pos])

/-- The function `NodeListener::process_topic_info`: the returned flag and the value of
the reference parameter `topic` on return. The loop gets `topic_str.size() + 1` rounds,
more than it can use (`process_topic_info_returns`). -/
def process_topic_info (topic_str prefix_ : Str) (topic : Topic) : Option (Bool × Topic) :=
  match find topic_str prefix_ 0 with
  | some pos0 =>
    let pos := pos0 + prefix_.length
    let r : Str × Nat :=
      match find topic_str typesMarker 0 with
      | some end_pos =>
        (['/'] ++ substr topic_str pos (sizeSub end_pos pos), end_pos + typesMarker.length)
      | none => (['/'] ++ substrFrom topic_str pos, pos)
    match typesLoop topic_str (topic_str.length + 1) (some r.2) topic.types with
    | some types => some (true, { topic := r.1, types := types })
    | none => none
  | none => some (false, topic)

/-- One round of the `for` loop of `onPublication` over the topics of the publication:
the locals `uuid` and `node` after the round for the string `topic`. -/
def decodeStep (P : Prefixes) (st : Str × Node) (topic : Str) : Option (Str × Node) :=
  match find topic P.dps_uuid_prefix 0 with
  | some pos => some (substrFrom topic (pos + P.dps_uuid_prefix.length), st.2)
  | none =>
  match find topic P.dps_namespace_prefix 0 with
  | some pos =>
    some (st.1, { st.2 with
      namespace_ := ['/'] ++ substrFrom topic (pos + P.dps_namespace_prefix.length) })
  | none =>
  match find topic P.dps_name_prefix 0 with
  | some pos =>
    some (st.1, { st.2 with name := substrFrom topic (pos + P.dps_name_prefix.length) })
  | none =>
  match process_topic_info topic P.dps_subscriber_prefix {} with
  | none => none
  | some (true, subscriber) =>
    some (st.1, { st.2 with subscribers := st.2.subscribers ++ [subscriber] })
  | some (false, _) =>
  match process_topic_info topic P.dps_publisher_prefix {} with
  | none => none
  | some (true, publisher) =>
    some (st.1, { st.2 with publishers := st.2.publishers ++ [publisher] })
  | some (false, _) =>
  match process_topic_info topic P.dps_service_prefix {} with
  | none => none
  | some (true, service) =>
    some (st.1, { st.2 with services := st.2.services ++ [service] })
  | some (false, _) => some st

/-- The `for` loop of `onPublication` from a given value of the locals. -/
def decodeFrom (P : Prefixes) : Str × Node → List Str → Option (Str × Node)
  | st, [] => some st
  | st, topic :: rest =>
    match decodeStep P st topic with
    | some st1 => decodeFrom P st1 rest
    | none => none

/-- The decoding loop of `onPublication` (lines 97 to 133): the locals `uuid` and `node`
after all topics of the publication were looked at. -/
def decodeLoop (P : Prefixes) (topics : List Str) : Option (Str × Node) :=
  decodeFrom P ([], {}) topics

/-! ## The containers of the cache and of the queries -/

/-- A `std::map<std::string, β>`, as the list of its entries in iteration order. -/
abbrev SMap (β : Type) := List (Str × β)

/-- The call `m.find(k)`: the mapped value, `none` for `end()`. -/
def SMap.find {β : Type} : SMap β → Str → Option β
  | [], _ => none
  | (k1, v) :: t, k => if k = k1 then some v else SMap.find t k

/-- The assignment `m[k] = v`: the entry for `k` is replaced, or created at its place in
the key order. -/
def SMap.assign {β : Type} : SMap β → Str → β → SMap β
  | [], k, v => [(k, v)]
  | (k1, v1) :: t, k, v =>
    if strLt k k1 then (k, v) :: (k1, v1) :: t
    else if k = k1 then (k, v) :: t
    else (k1, v1) :: SMap.assign t k v

/-- The read `m[k]`: the mapped value, after an entry with the value `dflt` of the
default constructor was created when `k` had none. -/
def SMap.index {β : Type} (m : SMap β) (k : Str) (dflt : β) : SMap β × β :=
  match SMap.find m k with
  | some v => (m, v)
  | none => (SMap.assign m k dflt, dflt)

/-- A `std::set<std::string>`, as the list of its elements in iteration order. -/
abbrev StrSet := List Str

/-- The call `s.insert(x)` of a `std::set<std::string>`. -/
def StrSet.insert : StrSet → Str → StrSet
  | [], x => [x]
  | y :: t, x =>
    if strLt x y then x :: y :: t
    else if x = y then y :: t
    else y :: StrSet.insert t x

/-- The call `s.insert(first, last)` of a `std::set<std::string>` for the range `xs`. -/
def StrSet.insertRange (s : StrSet) (xs : List Str) : StrSet :=
  xs.foldl StrSet.insert s

/-- The algorithm `std::count_if`. -/
def count_if {α : Type} (p : α → Bool) (l : List α) : Nat :=
  l.foldl (fun n x => if p x then n + 1 else n) 0

/-! ## The graph cache -/

/-- The member `discovered_nodes_` of `NodeListener`. -/
abbrev Cache := SMap Node

/-- What `onPublication` does besides updating `discovered_nodes_`, in program order:
the constructor and the destructor of its `std::lock_guard`, the call of `_advertise`
and the call of `rmw_trigger_guard_condition`. -/
inductive Event where
  | lock
  | advertise
  | trigger_guard_condition
  | unlock
  deriving DecidableEq, Repr

/-- The library function `DPS_UUIDCompare` on UUIDs taken as numbers: zero exactly for
equal UUIDs. -/
def DPS_UUIDCompare (a b : Nat) : Int :=
  if a < b then -1 else if a = b then 0 else 1

/-- The outcome of lines 139 to 157 of `onPublication`: the map, whether `_advertise`
was called, and the local `trigger`. -/
structure IngestResult where
  discovered_nodes_ : Cache
  advertised : Bool
  trigger : Bool
  deriving DecidableEq, Repr

/-- Lines 139 to 157 of `onPublication`, for the locals `uuid` and `node` left by the
decoding loop; `advertisement_uuid` is the UUID of `impl->advertisement_` and
`pub_uuid` the UUID of the publication that came in. -/
def ingest (discovered_nodes_ : Cache) (uuid : Str) (node : Node)
    (advertisement_uuid pub_uuid : Nat) : IngestResult :=
  let advertised :=
    decide (SMap.find discovered_nodes_ uuid = none) &&
      decide (DPS_UUIDCompare advertisement_uuid pub_uuid ≠ 0)
  let r := SMap.index discovered_nodes_ uuid {}
  let old_node := r.2
  let m := SMap.assign r.1 uuid node
  let trigger := !(Node.eq old_node node)
  { discovered_nodes_ := m, advertised := advertised, trigger := trigger }

/-- The events of lines 139 to 157 of `onPublication`. -/
def IngestResult.events (r : IngestResult) : List Event :=
  (if r.advertised then [Event.advertise] else []) ++
  (if r.trigger then [Event.trigger_guard_condition] else [])

/-- The callback `NodeListener::onPublication`: the map and the events after the call;
`topics` are the topics of the publication `pub`. The result is `none` only when the
bound on the loop of `process_topic_info` was reached, which does not happen
(`onPublication_returns`). -/
def onPublication (P : Prefixes) (discovered_nodes_ : Cache) (advertisement_uuid : Nat)
    (topics : List Str) (pub_uuid : Nat) : Option (Cache × List Event) :=
  match decodeLoop P topics with
  | none => none
  | some (uuid, node) =>
    if uuid = [] then
      some (discovered_nodes_, [Event.lock, Event.unlock])
    else
      let r := ingest discovered_nodes_ uuid node advertisement_uuid pub_uuid
      some (r.discovered_nodes_, [Event.lock] ++ r.events ++ [Event.unlock])

/-- The method `get_discovered_nodes`: a vector of `size()` default nodes, whose element
`i` is then set to the node of the `i`-th entry. -/
def get_discovered_nodes (discovered_nodes_ : Cache) : List Node :=
  (discovered_nodes_.foldl
    (fun (st : List Node × Nat) it => (st.1.set st.2 it.2, st.2 + 1))
    (List.replicate discovered_nodes_.length {}, 0)).1

/-! ## The queries -/

/-- The method `count_subscribers`. -/
def count_subscribers (discovered_nodes_ : Cache) (topic_name : Str) : Nat :=
  discovered_nodes_.foldl
    (fun count it =>
      count + count_if (fun subscriber : Topic => decide (subscriber.topic = topic_name))
        it.2.subscribers) 0

/-- The method `count_publishers`. -/
def count_publishers (discovered_nodes_ : Cache) (topic_name : Str) : Nat :=
  discovered_nodes_.foldl
    (fun count it =>
      count + count_if (fun publisher : Topic => decide (publisher.topic = topic_name))
        it.2.publishers) 0

/-- The method `count_services`. -/
def count_services (discovered_nodes_ : Cache) (topic_name : Str) : Nat :=
  discovered_nodes_.foldl
    (fun count it =>
      count + count_if (fun service : Topic => decide (service.topic = topic_name))
        it.2.services) 0

/-- The loop `for (auto it : topics) names_and_types[it.topic].insert(it.types.begin(),
it.types.end());` that the four map valued queries share. -/
def addTopics (names_and_types : SMap StrSet) (topics : List Topic) : SMap StrSet :=
  topics.foldl
    (fun acc it =>
      let r := SMap.index acc it.topic []
      SMap.assign r.1 it.topic (StrSet.insertRange r.2 it.types))
    names_and_types

/-- The call of `std::find_if` in the three `get_*_names_and_types_by_node` methods. -/
def find_node (discovered_nodes_ : Cache) (name namespace_ : Str) : Option (Str × Node) :=
  discovered_nodes_.find?
    (fun pair => decide (pair.2.name = name) && decide (pair.2.namespace_ = namespace_))

/-- The method `get_subscriber_names_and_types_by_node`. -/
def get_subscriber_names_and_types_by_node (discovered_nodes_ : Cache)
    (name namespace_ : Str) : SMap StrSet :=
  match find_node discovered_nodes_ name namespace_ with
  | some uuid_node_pair => addTopics [] uuid_node_pair.2.subscribers
  | none => []

/-- The method `get_publisher_names_and_types_by_node`. -/
def get_publisher_names_and_types_by_node (discovered_nodes_ : Cache)
    (name namespace_ : Str) : SMap StrSet :=
  match find_node discovered_nodes_ name namespace_ with
  | some uuid_node_pair => addTopics [] uuid_node_pair.2.publishers
  | none => []

/-- The method `get_service_names_and_types_by_node`. -/
def get_service_names_and_types_by_node (discovered_nodes_ : Cache)
    (name namespace_ : Str) : SMap StrSet :=
  match find_node discovered_nodes_ name namespace_ with
  | some uuid_node_pair => addTopics [] uuid_node_pair.2.services
  | none => []

/-- The method `get_topic_names_and_types`. -/
def get_topic_names_and_types (discovered_nodes_ : Cache) : SMap StrSet :=
  discovered_nodes_.foldl
    (fun names_and_types uuid_node_pair =>
      addTopics
        (addTopics (addTopics names_and_types uuid_node_pair.2.subscribers)
          uuid_node_pair.2.publishers)
        uuid_node_pair.2.services)
    []

/-! ## The encoder of the specification -/

/-- Modelled from the spec: the stripping of the leading `/` that section 4.1 asks of
the encoder for the namespace and for topic names (the encoder, `_advertise` and its
callers, is not part of the sources at hand). -/
def stripSlash : Str → Str
  | '/' :: t => t
  | s => s

/-- Modelled from the spec: the comma-joined type names of section 4.1. -/
def joinTypes : List Str → Str
  | [] => []
  | [t] => t
  | t :: rest => t ++ [','] ++ joinTypes rest

/-- Modelled from the spec: the topic string of one endpoint, section 4.1:
`<category-prefix><topic-name-without-leading-slash>&types=<comma-joined type_names>`,
the `&types=` segment left out when there are no types. -/
def encodeEndpoint (prefix_ : Str) (e : Topic) : Str :=
  prefix_ ++ stripSlash e.topic ++
    (if e.types = [] then [] else typesMarker ++ joinTypes e.types)

/-- Modelled from the spec: `Encode(identity, record)` of section 4.1, the encoder that
the sources at hand do not contain: the identity topic, the namespace topic, the name
topic, then one topic per subscriber, publisher and service. -/
def Encode (P : Prefixes) (identity : Str) (record : Node) : List Str :=
  [P.dps_uuid_prefix ++ identity,
   P.dps_namespace_prefix ++ stripSlash record.namespace_,
   P.dps_name_prefix ++ record.name] ++
  record.subscribers.map (encodeEndpoint P.dps_subscriber_prefix) ++
  record.publishers.map (encodeEndpoint P.dps_publisher_prefix) ++
  record.services.map (encodeEndpoint P.dps_service_prefix)

/-- One assignment of the six prefix constants, to try the code on. -/
def samplePrefixes : Prefixes where
  dps_uuid_prefix := "uuid=".toList
  dps_namespace_prefix := "namespace=".toList
  dps_name_prefix := "name=".toList
  dps_subscriber_prefix := "subscriber=".toList
  dps_publisher_prefix := "publisher=".toList
  dps_service_prefix := "service=".toList

/-! ## Notions used to state the properties -/

/-- The keys of a map are strictly ascending in iteration order, as in every
`std::map`. -/
def SMap.Ascending {β : Type} (m : SMap β) : Prop :=
  m.Pairwise (fun a b => strLt a.1 b.1 = true)

instance SMap.decidableAscending {β : Type} (m : SMap β) : Decidable (SMap.Ascending m) := by
  unfold SMap.Ascending
  infer_instance

/-- A sequence of ingests, one after the other: each entry is the decoded `uuid`, the
decoded `node` and the UUID of the publication. -/
def ingestAll (advertisement_uuid : Nat) : Cache → List (Str × Node × Nat) → Cache
  | m, [] => m
  | m, x :: rest =>
    ingestAll advertisement_uuid
      (ingest m x.1 x.2.1 advertisement_uuid x.2.2).discovered_nodes_ rest

/-- The record most recently ingested for `uuid` in a sequence of ingests. -/
def lastIngested (uuid : Str) (l : List (Str × Node × Nat)) : Option Node :=
  (l.reverse.find? (fun x => decide (x.1 = uuid))).map (fun x => x.2.1)

/-- The map from topic names to type sets that the specification describes for the
endpoints picked out by `src`: a `std::map` of `std::set`s whose keys are exactly the
topic names of these endpoints and whose set for a key is exactly the union of the type
names of the endpoints with that topic name. -/
def TopicView (src : Topic → Prop) (r : SMap StrSet) : Prop :=
  SMap.Ascending r ∧
  ∀ x : Str,
    ((SMap.find r x).isSome = true ↔ ∃ e, src e ∧ e.topic = x) ∧
    ∀ s, SMap.find r x = some s →
      s.Pairwise (fun a b => strLt a b = true) ∧
      ∀ ty, ty ∈ s ↔ ∃ e, src e ∧ e.topic = x ∧ ty ∈ e.types

/-- An endpoint whose topic string, written by `encodeEndpoint` for the category prefix
`prefix_`, is read back by `process_topic_info`: the topic name begins with `/`, there
is at least one type, no type has a comma, `"&types="` does not occur in the prefix
followed by the stripped topic name, and the topic string is shorter than `2 ^ 64`. -/
def EndpointOk (prefix_ : Str) (e : Topic) : Prop :=
  e.topic.head? = some '/' ∧
  e.types ≠ [] ∧
  (∀ ty ∈ e.types, ',' ∉ ty) ∧
  ¬ typesMarker <:+: prefix_ ++ stripSlash e.topic ∧
  (encodeEndpoint prefix_ e).length < SIZE_MOD

instance EndpointOk.decidable (prefix_ : Str) (e : Topic) : Decidable (EndpointOk prefix_ e) := by
  unfold EndpointOk
  infer_instance

/-- A record that `Encode` writes in a form the decoding loop reads back: the namespace
begins with `/`, every endpoint is `EndpointOk` for the prefix of its category, and no
topic string of `Encode` contains a prefix that the loop tests before the one the string
was written with (the loop tests the prefixes in the order identity, namespace, name,
subscriber, publisher, service). -/
def WellFormed (P : Prefixes) (r : Node) : Prop :=
  r.namespace_.head? = some '/' ∧
  ¬ P.dps_uuid_prefix <:+: P.dps_namespace_prefix ++ stripSlash r.namespace_ ∧
  (¬ P.dps_uuid_prefix <:+: P.dps_name_prefix ++ r.name ∧
    ¬ P.dps_namespace_prefix <:+: P.dps_name_prefix ++ r.name) ∧
  (∀ e ∈ r.subscribers,
    EndpointOk P.dps_subscriber_prefix e ∧
    ¬ P.dps_uuid_prefix <:+: encodeEndpoint P.dps_subscriber_prefix e ∧
    ¬ P.dps_namespace_prefix <:+: encodeEndpoint P.dps_subscriber_prefix e ∧
    ¬ P.dps_name_prefix <:+: encodeEndpoint P.dps_subscriber_prefix e) ∧
  (∀ e ∈ r.publishers,
    EndpointOk P.dps_publisher_prefix e ∧
    ¬ P.dps_uuid_prefix <:+: encodeEndpoint P.dps_publisher_prefix e ∧
    ¬ P.dps_namespace_prefix <:+: encodeEndpoint P.dps_publisher_prefix e ∧
    ¬ P.dps_name_prefix <:+: encodeEndpoint P.dps_publisher_prefix e ∧
    ¬ P.dps_subscriber_prefix <:+: encodeEndpoint P.dps_publisher_prefix e) ∧
  (∀ e ∈ r.services,
    EndpointOk P.dps_service_prefix e ∧
    ¬ P.dps_uuid_prefix <:+: encodeEndpoint P.dps_service_prefix e ∧
    ¬ P.dps_namespace_prefix <:+: encodeEndpoint P.dps_service_prefix e ∧
    ¬ P.dps_name_prefix <:+: encodeEndpoint P.dps_service_prefix e ∧
    ¬ P.dps_subscriber_prefix <:+: encodeEndpoint P.dps_service_prefix e ∧
    ¬ P.dps_publisher_prefix <:+: encodeEndpoint P.dps_service_prefix e)

instance WellFormed.decidable (P : Prefixes) (r : Node) : Decidable (WellFormed P r) := by
  unfold WellFormed
  infer_instance

/-- What holds of every endpoint that `process_topic_info` fills in: it has at least one
type and no type has a comma. -/
def Topic.Parsed (e : Topic) : Prop :=
  e.types ≠ [] ∧ ∀ ty ∈ e.types, ',' ∉ ty

/-- Every endpoint of the record is `Topic.Parsed`. -/
def Node.Parsed (n : Node) : Prop :=
  (∀ e ∈ n.subscribers, e.Parsed) ∧ (∀ e ∈ n.publishers, e.Parsed) ∧
    (∀ e ∈ n.services, e.Parsed)

/-- A topic string that contains none of the six prefixes. -/
def Unrecognized (P : Prefixes) (t : Str) : Prop :=
  ¬ P.dps_uuid_prefix <:+: t ∧ ¬ P.dps_namespace_prefix <:+: t ∧
  ¬ P.dps_name_prefix <:+: t ∧ ¬ P.dps_subscriber_prefix <:+: t ∧
  ¬ P.dps_publisher_prefix <:+: t ∧ ¬ P.dps_service_prefix <:+: t

instance Unrecognized.decidable (P : Prefixes) (t : Str) : Decidable (Unrecognized P t) := by
  unfold Unrecognized
  infer_instance

/-- The list `padded` is the list `topics` with any number of `Unrecognized` strings put
in at any positions. -/
inductive Padded (P : Prefixes) : List Str → List Str → Prop where
  | nil : Padded P [] []
  | keep (t : Str) {topics padded : List Str} :
      Padded P topics padded → Padded P (t :: topics) (t :: padded)
  | pad (x : Str) {topics padded : List Str} :
      Unrecognized P x → Padded P topics padded → Padded P topics (x :: padded)

/-- The namespace of the record and the topic name of each of its endpoints begin with
`/`. -/
def Node.Slashed (n : Node) : Prop :=
  n.namespace_.head? = some '/' ∧
  (∀ e ∈ n.subscribers, e.topic.head? = some '/') ∧
  (∀ e ∈ n.publishers, e.topic.head? = some '/') ∧
  (∀ e ∈ n.services, e.topic.head? = some '/')

/-- The pieces of `s` between its commas, from left to right, empty pieces kept: one
piece more than `s` has commas. -/
def splitComma : Str → List Str
  | [] => [[]]
  | c :: t =>
    if c = ',' then [] :: splitComma t
    else
      match splitComma t with
      | [] => [[c]]
      | piece :: rest => (c :: piece) :: rest

/-- Whether the mutex of the listener is held after the events `pre` of a trace: it was
locked more often than unlocked. -/
def lockHeld (pre : List Event) : Bool :=
  decide (pre.count Event.unlock < pre.count Event.lock)

/-- The six prefixes in the order in which the decoding loop tests them. -/
def recognizedPrefixes (P : Prefixes) : List Str :=
  [P.dps_uuid_prefix, P.dps_namespace_prefix, P.dps_name_prefix,
   P.dps_subscriber_prefix, P.dps_publisher_prefix, P.dps_service_prefix]

/-- The topic string `t` contains exactly one occurrence of a recognized prefix, namely
the prefix number `own` at position 0: wherever the prefix number `k` stands in `t`, at
an index `i`, `k` is `own` and `i` is 0. -/
def OnlyOwnPrefix (P : Prefixes) (own : Nat) (t : Str) : Prop :=
  ∀ k < 6, ∀ i ≤ t.length, (recognizedPrefixes P).getD k [] <+: t.drop i → k = own ∧ i = 0

instance OnlyOwnPrefix.decidable (P : Prefixes) (own : Nat) (t : Str) :
    Decidable (OnlyOwnPrefix P own t) := by
  unfold OnlyOwnPrefix
  infer_instance

/-- The premises of the round trip as the specification words them: the identity is not
empty; the namespace and every endpoint topic name begin with `/`; every endpoint has at
least one type; no type name has a comma; none of the identity, the name, the namespace,
the topic names and the type names contains `"&types="`; and every topic string of
`Encode` contains exactly one occurrence of a recognized prefix, its own at position
0. -/
def RoundTripPremise (P : Prefixes) (identity : Str) (r : Node) : Prop :=
  identity ≠ [] ∧
  r.namespace_.head? = some '/' ∧
  (∀ e ∈ r.subscribers ++ r.publishers ++ r.services,
    e.topic.head? = some '/' ∧ e.types ≠ [] ∧ ¬ typesMarker <:+: e.topic ∧
    ∀ ty ∈ e.types, ',' ∉ ty ∧ ¬ typesMarker <:+: ty) ∧
  ¬ typesMarker <:+: identity ∧ ¬ typesMarker <:+: r.name ∧
  ¬ typesMarker <:+: r.namespace_ ∧
  OnlyOwnPrefix P 0 (P.dps_uuid_prefix ++ identity) ∧
  OnlyOwnPrefix P 1 (P.dps_namespace_prefix ++ stripSlash r.namespace_) ∧
  OnlyOwnPrefix P 2 (P.dps_name_prefix ++ r.name) ∧
  (∀ e ∈ r.subscribers, OnlyOwnPrefix P 3 (encodeEndpoint P.dps_subscriber_prefix e)) ∧
  (∀ e ∈ r.publishers, OnlyOwnPrefix P 4 (encodeEndpoint P.dps_publisher_prefix e)) ∧
  (∀ e ∈ r.services, OnlyOwnPrefix P 5 (encodeEndpoint P.dps_service_prefix e))

instance RoundTripPremise.decidable (P : Prefixes) (identity : Str) (r : Node) :
    Decidable (RoundTripPremise P identity r) := by
  unfold RoundTripPremise
  infer_instance

theorem findAux_bounds (pat : Str) : ∀ (s : Str) (i e : Nat),
    findAux pat s i = some e → i ≤ e ∧ e + pat.length ≤ i + s.length := by
  intro s
  induction s with
  | nil =>
    intro i e h
    by_cases hp : pat = []
    · simp [findAux, hp] at h
      subst h
      simp [hp]
    · simp [findAux, hp] at h
  | cons c t ih =>
    intro i e h
    by_cases hp : pat.isPrefixOf (c :: t) = true
    · simp only [findAux, hp, if_true, Option.some.injEq] at h
      subst h
      have := (List.isPrefixOf_iff_prefix.mp hp).length_le
      exact ⟨le_refl _, by omega⟩
    · simp only [findAux, hp, Bool.false_eq_true, if_false] at h
      have := ih (i + 1) e h
      simp only [List.length_cons]
      omega

theorem find_bounds (s pat : Str) (pos e : Nat) (h : find s pat pos = some e) :
    pos ≤ e ∧ e + pat.length ≤ s.length := by
  unfold find at h
  split at h
  · have := findAux_bounds pat _ _ _ h
    simp only [List.length_drop] at this
    omega
  · cases h

theorem typesLoop_returns (s : Str) : ∀ (fuel pos : Nat) (acc : List Str),
    s.length + 1 ≤ fuel + pos → 1 ≤ fuel →
    ∃ tys, typesLoop s fuel (some pos) acc = some tys := by
  intro fuel
  induction fuel with
  | zero => intro pos acc _ h; omega
  | succ n ih =>
    intro pos acc h _
    cases hf : find s [','] pos with
    | none => simp [typesLoop, hf]
    | some e =>
      have hb := find_bounds s _ pos e hf
      simp only [List.length_singleton] at hb
      simp only [typesLoop, hf]
      exact ih (e + 1) _ (by omega) (by omega)

theorem process_topic_info_returns (topic_str prefix_ : Str) (topic : Topic) :
    ∃ r, process_topic_info topic_str prefix_ topic = some r := by
  unfold process_topic_info
  cases hf : find topic_str prefix_ 0 with
  | none => exact ⟨_, rfl⟩
  | some pos0 =>
    simp only
    split
    · exact ⟨_, rfl⟩
    · rename_i h
      obtain ⟨tys, ht⟩ := typesLoop_returns topic_str (topic_str.length + 1) _
        topic.types (by omega) (by omega)
      rw [ht] at h
      cases h

theorem decodeStep_returns (P : Prefixes) (st : Str × Node) (topic : Str) :
    ∃ st1, decodeStep P st topic = some st1 := by
  unfold decodeStep
  split
  · exact ⟨_, rfl⟩
  split
  · exact ⟨_, rfl⟩
  split
  · exact ⟨_, rfl⟩
  split
  · rename_i h
    obtain ⟨r, hr⟩ := process_topic_info_returns topic P.dps_subscriber_prefix {}
    rw [hr] at h; cases h
  · exact ⟨_, rfl⟩
  split
  · rename_i h
    obtain ⟨r, hr⟩ := process_topic_info_returns topic P.dps_publisher_prefix {}
    rw [hr] at h; cases h
  · exact ⟨_, rfl⟩
  split
  · rename_i h
    obtain ⟨r, hr⟩ := process_topic_info_returns topic P.dps_service_prefix {}
    rw [hr] at h; cases h
  · exact ⟨_, rfl⟩
  · exact ⟨_, rfl⟩

theorem decodeFrom_returns (P : Prefixes) : ∀ (topics : List Str) (st : Str × Node),
    ∃ st1, decodeFrom P st topics = some st1 := by
  intro topics
  induction topics with
  | nil => intro st; exact ⟨st, rfl⟩
  | cons t rest ih =>
    intro st
    obtain ⟨st1, h1⟩ := decodeStep_returns P st t
    obtain ⟨st2, h2⟩ := ih st1
    exact ⟨st2, by simp [decodeFrom, h1, h2]⟩

/-! ## Advertisements without an identity topic -/

theorem findAux_eq_none_iff (pat : Str) : ∀ (s : Str) (i : Nat),
    findAux pat s i = none ↔ ¬ pat <:+: s := by
  intro s
  induction s with
  | nil =>
    intro i
    by_cases hp : pat = []
    · simp [findAux, hp]
    · simp [findAux, hp]
  | cons c t ih =>
    intro i
    rw [List.infix_cons_iff]
    by_cases hp : pat.isPrefixOf (c :: t) = true
    · simp only [findAux, hp, if_true]
      simp [List.isPrefixOf_iff_prefix.mp hp]
    · simp only [findAux, hp, Bool.false_eq_true, if_false]
      rw [ih (i + 1)]
      have : ¬ pat <+: c :: t := fun h => hp (List.isPrefixOf_iff_prefix.mpr h)
      simp [this]

theorem find_eq_none_iff (s pat : Str) : find s pat 0 = none ↔ ¬ pat <:+: s := by
  simp [find, findAux_eq_none_iff]

theorem decodeStep_uuid_of_not_found (P : Prefixes) (st st1 : Str × Node) (topic : Str)
    (h : find topic P.dps_uuid_prefix 0 = none) (hs : decodeStep P st topic = some st1) :
    st1.1 = st.1 := by
  unfold decodeStep at hs
  rw [h] at hs
  simp only at hs
  repeat' split at hs
  all_goals first
    | cases hs; rfl
    | cases hs

theorem decodeFrom_uuid_of_not_found (P : Prefixes) : ∀ (topics : List Str) (st st1 : Str × Node),
    (∀ t ∈ topics, find t P.dps_uuid_prefix 0 = none) → decodeFrom P st topics = some st1 →
    st1.1 = st.1 := by
  intro topics
  induction topics with
  | nil => intro st st1 _ h; simp only [decodeFrom, Option.some.injEq] at h; rw [h]
  | cons t rest ih =>
    intro st st1 hall h
    obtain ⟨st2, h2⟩ := decodeStep_returns P st t
    simp only [decodeFrom, h2] at h
    rw [ih st2 st1 (fun x hx => hall x (List.mem_cons_of_mem _ hx)) h]
    exact decodeStep_uuid_of_not_found P st st2 t (hall t (List.mem_cons_self _ _)) h2

theorem onPublication_returns (P : Prefixes) (discovered_nodes_ : Cache)
    (advertisement_uuid pub_uuid : Nat) (topics : List Str) :
    ∃ r, onPublication P discovered_nodes_ advertisement_uuid topics pub_uuid = some r := by
  obtain ⟨st1, h1⟩ := decodeFrom_returns P topics ([], {})
  unfold onPublication
  rw [show decodeLoop P topics = some st1 from h1]
  simp only
  split
  · exact ⟨_, rfl⟩
  · exact ⟨_, rfl⟩

/-- C2: an advertisement none of whose topic strings contains the identity prefix leaves
the decoding loop with an empty `uuid`, and `onPublication` then returns with the map
unchanged and without calling `_advertise` or `rmw_trigger_guard_condition`. -/
theorem malformed_advertisement_dropped (P : Prefixes) (discovered_nodes_ : Cache)
    (advertisement_uuid pub_uuid : Nat) (topics : List Str)
    (h : ∀ t ∈ topics, ¬ P.dps_uuid_prefix <:+: t) :
    (∃ node, decodeLoop P topics = some ([], node)) ∧
    onPublication P discovered_nodes_ advertisement_uuid topics pub_uuid =
      some (discovered_nodes_, [Event.lock, Event.unlock]) := by
  obtain ⟨st1, h1⟩ := decodeFrom_returns P topics ([], {})
  have h2 : st1.1 = [] := decodeFrom_uuid_of_not_found P topics _ st1
    (fun t ht => (find_eq_none_iff t _).mpr (h t ht)) h1
  obtain ⟨uuid, node⟩ := st1
  simp only at h2
  subst h2
  refine ⟨⟨node, h1⟩, ?_⟩
  unfold onPublication
  rw [show decodeLoop P topics = some ([], node) from h1]
  simp

theorem malformed_advertisement_dropped_witness :
    (∃ node, decodeLoop samplePrefixes ["name=talker".toList, "junk".toList] = some ([], node)) ∧
    onPublication samplePrefixes [("u".toList, {})] 1 ["name=talker".toList, "junk".toList] 2 =
      some ([("u".toList, {})], [Event.lock, Event.unlock]) :=
  malformed_advertisement_dropped samplePrefixes [("u".toList, {})] 1 2
    ["name=talker".toList, "junk".toList] (by decide)

/-! ## The order of strings and the map -/

theorem strLt_irrefl : ∀ s : Str, strLt s s = false := by
  intro s
  induction s with
  | nil => rfl
  | cons a t ih => simp [strLt, ih]

theorem strLt_trans : ∀ s t u : Str, strLt s t = true → strLt t u = true → strLt s u = true := by
  intro s
  induction s with
  | nil =>
    intro t u h1 h2
    cases t with
    | nil => simp [strLt] at h1
    | cons b t =>
      cases u with
      | nil => simp [strLt] at h2
      | cons c u => rfl
  | cons a s ih =>
    intro t u h1 h2
    cases t with
    | nil => simp [strLt] at h1
    | cons b t =>
      cases u with
      | nil => simp [strLt] at h2
      | cons c u =>
        simp only [strLt, Bool.or_eq_true, decide_eq_true_eq, Bool.and_eq_true] at h1 h2 ⊢
        rcases h1 with h1 | ⟨h1, h1'⟩
        · rcases h2 with h2 | ⟨h2, _⟩
          · exact Or.inl (lt_trans h1 h2)
          · exact Or.inl (h2 ▸ h1)
        · rcases h2 with h2 | ⟨h2, h2'⟩
          · exact Or.inl (h1 ▸ h2)
          · exact Or.inr ⟨h1.trans h2, ih t u h1' h2'⟩

theorem strLt_total : ∀ s t : Str, strLt s t = false → s ≠ t → strLt t s = true := by
  intro s
  induction s with
  | nil =>
    intro t h1 h2
    cases t with
    | nil => exact absurd rfl h2
    | cons b t => simp [strLt] at h1
  | cons a s ih =>
    intro t h1 h2
    cases t with
    | nil => rfl
    | cons b t =>
      simp only [strLt, Bool.or_eq_false_iff, decide_eq_false_iff_not, Bool.and_eq_false_imp,
        decide_eq_true_eq, Bool.or_eq_true, Bool.and_eq_true] at h1 ⊢
      rcases lt_trichotomy a b with h | h | h
      · exact absurd h h1.1
      · subst h
        refine Or.inr ⟨rfl, ih t (h1.2 rfl) ?_⟩
        intro hst
        exact h2 (by rw [hst])
      · exact Or.inl h

theorem SMap.find_assign_self {β : Type} (k : Str) (v : β) : ∀ m : SMap β,
    SMap.find (SMap.assign m k v) k = some v := by
  intro m
  induction m with
  | nil => simp [SMap.assign, SMap.find]
  | cons p t ih =>
    obtain ⟨k1, v1⟩ := p
    simp only [SMap.assign]
    split
    · simp [SMap.find]
    · split
      · simp [SMap.find]
      · rename_i h1 h2
        simp [SMap.find, h2, ih]

theorem SMap.find_assign_of_ne {β : Type} (k j : Str) (v : β) (hne : j ≠ k) : ∀ m : SMap β,
    SMap.find (SMap.assign m k v) j = SMap.find m j := by
  intro m
  induction m with
  | nil => simp [SMap.assign, SMap.find, hne]
  | cons p t ih =>
    obtain ⟨k1, v1⟩ := p
    simp only [SMap.assign]
    split
    · simp [SMap.find, hne]
    · split
      · rename_i h1 h2
        subst h2
        simp [SMap.find, hne]
      · simp [SMap.find, ih]

theorem SMap.assign_assign {β : Type} (k : Str) (d v : β) : ∀ m : SMap β,
    SMap.assign (SMap.assign m k d) k v = SMap.assign m k v := by
  intro m
  induction m with
  | nil => simp [SMap.assign, strLt_irrefl]
  | cons p t ih =>
    obtain ⟨k1, v1⟩ := p
    simp only [SMap.assign]
    split
    · simp [SMap.assign, strLt_irrefl]
    · split
      · rename_i h1 h2
        subst h2
        simp [SMap.assign, strLt_irrefl]
      · rename_i h1 h2
        simp [SMap.assign, h1, h2, ih]

theorem vecEq_iff {α : Type} (eq : α → α → Bool) (h : ∀ a b, eq a b = true ↔ a = b) :
    ∀ s t : List α, vecEq eq s t = true ↔ s = t := by
  intro s
  induction s with
  | nil =>
    intro t
    cases t with
    | nil => simp [vecEq]
    | cons b t => simp [vecEq]
  | cons a s ih =>
    intro t
    cases t with
    | nil => simp [vecEq]
    | cons b t => simp [vecEq, h, ih]

theorem Topic_eq_iff (a b : Topic) : Topic.eq a b = true ↔ a = b := by
  obtain ⟨t1, y1⟩ := a
  obtain ⟨t2, y2⟩ := b
  simp [Topic.eq, vecEq_iff (fun x y : Str => decide (x = y)) (by simp)]

theorem Node_eq_iff (a b : Node) : Node.eq a b = true ↔ a = b := by
  obtain ⟨n1, s1, a1, b1, c1⟩ := a
  obtain ⟨n2, s2, a2, b2, c2⟩ := b
  simp [Node.eq, vecEq_iff Topic.eq Topic_eq_iff, and_assoc]

/-! ## Ingest -/

theorem ingest_discovered_nodes (m : Cache) (uuid : Str) (node : Node) (a p : Nat) :
    (ingest m uuid node a p).discovered_nodes_ = SMap.assign m uuid node := by
  unfold ingest SMap.index
  cases h : SMap.find m uuid with
  | none => simp [SMap.assign_assign]
  | some v => simp

theorem ingest_trigger (m : Cache) (uuid : Str) (node : Node) (a p : Nat) :
    (ingest m uuid node a p).trigger = !(Node.eq ((SMap.find m uuid).getD {}) node) := by
  unfold ingest SMap.index
  cases h : SMap.find m uuid with
  | none => simp
  | some v => simp

theorem ingest_advertised (m : Cache) (uuid : Str) (node : Node) (a p : Nat) :
    (ingest m uuid node a p).advertised = true ↔ SMap.find m uuid = none ∧ a ≠ p := by
  unfold ingest DPS_UUIDCompare
  simp only [Bool.and_eq_true, decide_eq_true_eq, ne_eq]
  refine and_congr Iff.rfl ?_
  by_cases h1 : a < p
  · simp [h1]; omega
  · by_cases h2 : a = p
    · simp [h2]
    · simp [h1, h2]

theorem find_ingest_self (m : Cache) (uuid : Str) (node : Node) (a p : Nat) :
    SMap.find (ingest m uuid node a p).discovered_nodes_ uuid = some node := by
  rw [ingest_discovered_nodes, SMap.find_assign_self]

theorem find_ingest_of_ne (m : Cache) (uuid other : Str) (node : Node) (a p : Nat)
    (h : other ≠ uuid) :
    SMap.find (ingest m uuid node a p).discovered_nodes_ other = SMap.find m other := by
  rw [ingest_discovered_nodes, SMap.find_assign_of_ne _ _ _ h]

theorem find_ingestAll_of_ne (adv : Nat) (uuid : Str) : ∀ (l : List (Str × Node × Nat)) (m : Cache),
    (∀ x ∈ l, x.1 ≠ uuid) → SMap.find (ingestAll adv m l) uuid = SMap.find m uuid := by
  intro l
  induction l with
  | nil => intro m _; rfl
  | cons x rest ih =>
    intro m h
    simp only [ingestAll]
    rw [ih _ (fun y hy => h y (List.mem_cons_of_mem _ hy)),
      find_ingest_of_ne _ _ _ _ _ _ (fun e => h x (List.mem_cons_self _ _) e.symm)]

theorem get_discovered_nodes_loop : ∀ (l : List (Str × Node)) (done : List Node) (rest : List Node),
    rest.length = l.length →
    (l.foldl (fun (st : List Node × Nat) it => (st.1.set st.2 it.2, st.2 + 1))
      (done ++ rest, done.length)).1 = done ++ l.map (fun it => it.2) := by
  intro l
  induction l with
  | nil =>
    intro done rest h
    cases rest with
    | nil => simp
    | cons r rest => simp at h
  | cons x l ih =>
    intro done rest h
    cases rest with
    | nil => simp at h
    | cons r rest =>
      simp only [List.length_cons, Nat.add_right_cancel_iff] at h
      simp only [List.foldl_cons, List.map_cons]
      have hset : (done ++ r :: rest).set done.length x.2 = (done ++ [x.2]) ++ rest := by
        simp [List.set_append_right]
      have hlen : done.length + 1 = (done ++ [x.2]).length := by simp
      rw [hset, hlen, ih (done ++ [x.2]) rest h]
      simp

theorem get_discovered_nodes_eq_map (m : Cache) :
    get_discovered_nodes m = m.map (fun it => it.2) := by
  have := get_discovered_nodes_loop m [] (List.replicate m.length {}) (by simp)
  simpa [get_discovered_nodes] using this

/-- C3: ingesting the same `uuid` and `node` a second time leaves `trigger` false, so
`rmw_trigger_guard_condition` is not called, and `get_discovered_nodes` returns what it
returned after the first ingest. -/
theorem ingest_idempotent (m : Cache) (uuid : Str) (node : Node) (a p a2 p2 : Nat) :
    (ingest (ingest m uuid node a p).discovered_nodes_ uuid node a2 p2).trigger = false ∧
    Event.trigger_guard_condition ∉
      (ingest (ingest m uuid node a p).discovered_nodes_ uuid node a2 p2).events ∧
    get_discovered_nodes
        (ingest (ingest m uuid node a p).discovered_nodes_ uuid node a2 p2).discovered_nodes_ =
      get_discovered_nodes (ingest m uuid node a p).discovered_nodes_ := by
  have ht : (ingest (ingest m uuid node a p).discovered_nodes_ uuid node a2 p2).trigger
      = false := by
    rw [ingest_trigger, find_ingest_self]
    simp [(Node_eq_iff node node).mpr rfl]
  refine ⟨ht, ?_, ?_⟩
  · unfold IngestResult.events
    rw [ht]
    split <;> simp
  · rw [ingest_discovered_nodes, ingest_discovered_nodes, SMap.assign_assign]

/-- C4: after `uuid` was ingested with the record `r1` and then any ingests for other
identities, an ingest of `uuid` with `r2` sets `trigger` to the negation of
`r1 == r2`, and `Node::operator==` holds exactly for records that agree in the name,
the namespace and the three endpoint sequences. -/
theorem change_detection_per_identity (adv : Nat) (m : Cache) (uuid : Str) (r1 r2 : Node)
    (p1 p2 : Nat) (others : List (Str × Node × Nat)) (h : ∀ x ∈ others, x.1 ≠ uuid) :
    (ingest (ingestAll adv (ingest m uuid r1 adv p1).discovered_nodes_ others)
        uuid r2 adv p2).trigger = !(Node.eq r1 r2) ∧
    (Node.eq r1 r2 = true ↔ r1 = r2) ∧
    (r1 ≠ r2 →
      (ingest (ingestAll adv (ingest m uuid r1 adv p1).discovered_nodes_ others)
        uuid r2 adv p2).trigger = true) ∧
    (r1 = r2 →
      (ingest (ingestAll adv (ingest m uuid r1 adv p1).discovered_nodes_ others)
        uuid r2 adv p2).trigger = false) := by
  have ht : (ingest (ingestAll adv (ingest m uuid r1 adv p1).discovered_nodes_ others)
        uuid r2 adv p2).trigger = !(Node.eq r1 r2) := by
    rw [ingest_trigger, find_ingestAll_of_ne adv uuid others _ h, find_ingest_self]
    rfl
  refine ⟨ht, Node_eq_iff r1 r2, ?_, ?_⟩
  · intro hne
    rw [ht]
    have : Node.eq r1 r2 = false := by
      rw [← Bool.not_eq_true, Node_eq_iff]
      exact hne
    simp [this]
  · intro he
    rw [ht, (Node_eq_iff r1 r2).mpr he]
    rfl

theorem change_detection_per_identity_witness :
    (ingest (ingestAll 7 (ingest [] ['u'] { name := ['a'] } 7 1).discovered_nodes_
        [(['v'], { name := ['c'] }, 2)]) ['u'] { name := ['b'] } 7 1).trigger = true :=
  (change_detection_per_identity 7 [] ['u'] { name := ['a'] } { name := ['b'] } 1 1
    [(['v'], { name := ['c'] }, 2)] (by decide)).2.2.1 (by decide)

/-- C6: after an ingest of `uuid` with `node` the map holds exactly `node` for `uuid`,
and for every other identity what it held before, a record or none. This holds for
every `uuid`, so for the non-empty ones that `onPublication` passes on. -/
theorem ingest_replaces_with_frame (m : Cache) (uuid : Str) (node : Node) (a p : Nat) :
    SMap.find (ingest m uuid node a p).discovered_nodes_ uuid = some node ∧
    ∀ other : Str, other ≠ uuid →
      SMap.find (ingest m uuid node a p).discovered_nodes_ other = SMap.find m other :=
  ⟨find_ingest_self m uuid node a p, fun other h => find_ingest_of_ne m uuid other node a p h⟩

/-! ## New identities -/

theorem find_append_self (pat rest : Str) : find (pat ++ rest) pat 0 = some 0 := by
  unfold find
  simp only [Nat.zero_le, if_true, List.drop_zero]
  cases h : pat ++ rest with
  | nil =>
    have : pat = [] := (List.append_eq_nil.mp h).1
    simp [findAux, this]
  | cons c t =>
    have hp : pat.isPrefixOf (c :: t) = true := by
      rw [← h]
      exact List.isPrefixOf_iff_prefix.mpr (List.prefix_append _ _)
    simp [findAux, hp]

theorem onPublication_eq_ingest (P : Prefixes) (m : Cache) (a p : Nat) (topics : List Str)
    (uuid : Str) (node : Node) (hd : decodeLoop P topics = some (uuid, node))
    (hne : uuid ≠ []) :
    onPublication P m a topics p =
      some ((ingest m uuid node a p).discovered_nodes_,
        [Event.lock] ++ (ingest m uuid node a p).events ++ [Event.unlock]) := by
  unfold onPublication
  rw [hd]
  simp [hne]

theorem decodeLoop_identity_only (P : Prefixes) (uuid : Str) :
    decodeLoop P [P.dps_uuid_prefix ++ uuid] = some (uuid, {}) := by
  simp [decodeLoop, decodeFrom, decodeStep, find_append_self, substrFrom]

/-- C5, the code at the failing input: a publication whose only topic is the identity
topic of the unseen identity `u` adds a record to what `get_discovered_nodes` returns,
and `rmw_trigger_guard_condition` is not called. -/
theorem new_default_record_not_notified (P : Prefixes) :
    onPublication P [] 1 [P.dps_uuid_prefix ++ ['u']] 2 =
      some ([(['u'], {})], [Event.lock, Event.advertise, Event.unlock]) ∧
    (ingest [] ['u'] {} 1 2).trigger = false ∧
    get_discovered_nodes [] = [] ∧
    get_discovered_nodes [(['u'], {})] = [{}] := by
  refine ⟨?_, by decide, by decide, by decide⟩
  rw [onPublication_eq_ingest P [] 1 2 _ ['u'] {} (decodeLoop_identity_only P ['u']) (by simp)]
  decide

/-! ## The identities in the cache -/

theorem SMap.mem_keys_assign {β : Type} (k j : Str) (v : β) : ∀ m : SMap β,
    j ∈ (SMap.assign m k v).map (fun it => it.1) ↔ j = k ∨ j ∈ m.map (fun it => it.1) := by
  intro m
  induction m with
  | nil =>
    simp only [SMap.assign, List.map_cons, List.map_nil, List.mem_cons, List.not_mem_nil]
  | cons x t ih =>
    obtain ⟨k1, v1⟩ := x
    simp only [SMap.assign]
    split
    · simp only [List.map_cons, List.mem_cons]
    · split
      · rename_i h1 h2
        subst h2
        simp only [List.map_cons, List.mem_cons]
        tauto
      · simp only [List.map_cons, List.mem_cons, ih]
        tauto

theorem SMap.assign_ascending {β : Type} (k : Str) (v : β) : ∀ m : SMap β,
    SMap.Ascending m → SMap.Ascending (SMap.assign m k v) := by
  intro m
  induction m with
  | nil => intro _; simp [SMap.assign, SMap.Ascending]
  | cons x t ih =>
    obtain ⟨k1, v1⟩ := x
    intro h
    unfold SMap.Ascending at h ih ⊢
    rw [List.pairwise_cons] at h
    simp only [SMap.assign]
    split
    · rename_i h1
      rw [List.pairwise_cons]
      refine ⟨?_, List.pairwise_cons.mpr h⟩
      intro y hy
      rcases List.mem_cons.mp hy with rfl | hy
      · exact h1
      · exact strLt_trans _ _ _ h1 (h.1 y hy)
    · split
      · rename_i h1 h2
        subst h2
        exact List.pairwise_cons.mpr h
      · rename_i h1 h2
        rw [List.pairwise_cons]
        refine ⟨?_, ih h.2⟩
        intro y hy
        have hk : y.1 ∈ (SMap.assign t k v).map (fun it => it.1) := List.mem_map_of_mem _ hy
        rcases (SMap.mem_keys_assign k y.1 v t).mp hk with e | hm
        · rw [e]
          exact strLt_total k k1 (by simpa using h1) h2
        · obtain ⟨z, hz, hz1⟩ := List.mem_map.mp hm
          rw [← hz1]
          exact h.1 z hz

theorem SMap.nodup_keys_of_ascending {β : Type} : ∀ m : SMap β,
    SMap.Ascending m → (m.map (fun it => it.1)).Nodup := by
  intro m
  induction m with
  | nil => intro _; exact List.nodup_nil
  | cons x t ih =>
    intro h
    unfold SMap.Ascending at h ih
    rw [List.pairwise_cons] at h
    rw [List.map_cons, List.nodup_cons]
    refine ⟨?_, ih h.2⟩
    intro hx
    obtain ⟨z, hz, hz1⟩ := List.mem_map.mp hx
    have := h.1 z hz
    rw [hz1, strLt_irrefl] at this
    cases this

theorem SMap.find_of_mem {β : Type} : ∀ (m : SMap β) (k : Str) (v : β),
    (m.map (fun it => it.1)).Nodup → (k, v) ∈ m → SMap.find m k = some v := by
  intro m
  induction m with
  | nil => intro k v _ h; cases h
  | cons x t ih =>
    obtain ⟨k1, v1⟩ := x
    intro k v hn h
    rw [List.map_cons, List.nodup_cons] at hn
    rcases List.mem_cons.mp h with e | h2
    · cases e
      simp only [SMap.find, if_true]
    · have hne : k ≠ k1 := by
        intro e
        exact hn.1 (List.mem_map.mpr ⟨(k, v), h2, e⟩)
      simp only [SMap.find, hne, if_false, ih k v hn.2 h2]

theorem SMap.mem_keys_iff_find {β : Type} : ∀ (m : SMap β) (k : Str),
    k ∈ m.map (fun it => it.1) ↔ SMap.find m k ≠ none := by
  intro m
  induction m with
  | nil =>
    intro k
    simp only [List.map_nil, List.not_mem_nil, SMap.find, ne_eq, not_true_eq_false]
  | cons x t ih =>
    obtain ⟨k1, v1⟩ := x
    intro k
    by_cases hk : k = k1
    · simp only [List.map_cons, List.mem_cons, hk, true_or, SMap.find, if_true, ne_eq,
        reduceCtorEq, not_false_eq_true]
    · simp only [List.map_cons, List.mem_cons, hk, false_or, SMap.find, if_false, ih k]

theorem ingestAll_ascending (adv : Nat) : ∀ (l : List (Str × Node × Nat)) (m : Cache),
    SMap.Ascending m → SMap.Ascending (ingestAll adv m l) := by
  intro l
  induction l with
  | nil => intro m h; exact h
  | cons x rest ih =>
    intro m h
    simp only [ingestAll]
    apply ih
    rw [ingest_discovered_nodes]
    exact SMap.assign_ascending _ _ m h

theorem lastIngested_cons (uuid : Str) (x : Str × Node × Nat) (rest : List (Str × Node × Nat)) :
    lastIngested uuid (x :: rest) =
      (lastIngested uuid rest).or (if x.1 = uuid then some x.2.1 else none) := by
  unfold lastIngested
  rw [List.reverse_cons, List.find?_append]
  cases h : List.find? (fun x => decide (x.1 = uuid)) rest.reverse with
  | some y => simp
  | none =>
    by_cases hx : x.1 = uuid
    · simp [List.find?, hx]
    · simp [List.find?, hx]

theorem find_ingestAll (adv : Nat) (uuid : Str) : ∀ (l : List (Str × Node × Nat)) (m : Cache),
    SMap.find (ingestAll adv m l) uuid = (lastIngested uuid l).or (SMap.find m uuid) := by
  intro l
  induction l with
  | nil => intro m; simp [ingestAll, lastIngested]
  | cons x rest ih =>
    intro m
    simp only [ingestAll]
    rw [ih, lastIngested_cons]
    by_cases hx : x.1 = uuid
    · subst hx
      rw [find_ingest_self]
      cases lastIngested x.1 rest <;> simp
    · rw [find_ingest_of_ne _ _ _ _ _ _ (fun e => hx e.symm)]
      cases lastIngested uuid rest <;> simp [hx]

theorem mem_keys_ingestAll (adv : Nat) (uuid : Str) : ∀ (l : List (Str × Node × Nat)) (m : Cache),
    uuid ∈ (ingestAll adv m l).map (fun it => it.1) ↔
      uuid ∈ l.map (fun x => x.1) ∨ uuid ∈ m.map (fun it => it.1) := by
  intro l
  induction l with
  | nil =>
    intro m
    simp only [ingestAll, List.map_nil, List.not_mem_nil, false_or]
  | cons x rest ih =>
    intro m
    simp only [ingestAll]
    rw [ih, ingest_discovered_nodes, SMap.mem_keys_assign]
    simp only [List.map_cons, List.mem_cons]
    tauto

/-- C7: after any sequence of ingests into an empty map, `get_discovered_nodes` returns
as many records as there are distinct identities in the sequence, one per identity and
each the record ingested last for it; and an identity that has a record still has one
after any ingest. -/
theorem records_never_removed (adv : Nat) (l : List (Str × Node × Nat)) :
    (get_discovered_nodes (ingestAll adv [] l)).length =
      ((l.map (fun x => x.1)).dedup).length ∧
    (∃ ids : List Str, ids.Nodup ∧ (∀ uuid, uuid ∈ ids ↔ uuid ∈ l.map (fun x => x.1)) ∧
      List.Forall₂ (fun uuid node => lastIngested uuid l = some node) ids
        (get_discovered_nodes (ingestAll adv [] l))) ∧
    (∀ uuid, SMap.find (ingestAll adv [] l) uuid = lastIngested uuid l) ∧
    (∀ (m : Cache) (uuid other : Str) (node : Node) (a p : Nat),
      SMap.find m uuid ≠ none →
      SMap.find (ingest m other node a p).discovered_nodes_ uuid ≠ none) := by
  have hasc : SMap.Ascending (ingestAll adv [] l) :=
    ingestAll_ascending adv l [] (by simp [SMap.Ascending])
  have hnd := SMap.nodup_keys_of_ascending _ hasc
  have hmem : ∀ uuid, uuid ∈ (ingestAll adv [] l).map (fun it => it.1) ↔
      uuid ∈ l.map (fun x => x.1) := by
    intro uuid
    rw [mem_keys_ingestAll]
    simp only [List.map_nil, List.not_mem_nil, or_false]
  have hfind : ∀ uuid, SMap.find (ingestAll adv [] l) uuid = lastIngested uuid l := by
    intro uuid
    rw [find_ingestAll]
    simp only [SMap.find, Option.or_none]
  refine ⟨?_, ⟨_, hnd, hmem, ?_⟩, hfind, ?_⟩
  · rw [get_discovered_nodes_eq_map, List.length_map,
      ← List.length_map (ingestAll adv [] l) (fun it => it.1)]
    apply List.Perm.length_eq
    rw [List.perm_ext_iff_of_nodup hnd (List.nodup_dedup _)]
    intro uuid
    rw [hmem, List.mem_dedup]
  · rw [get_discovered_nodes_eq_map, List.forall₂_map_left_iff, List.forall₂_map_right_iff,
      List.forall₂_same]
    intro x hx
    rw [← hfind]
    exact SMap.find_of_mem _ x.1 x.2 hnd hx
  · intro m uuid other node a p h
    by_cases hk : uuid = other
    · subst hk
      rw [find_ingest_self]
      simp
    · rw [find_ingest_of_ne _ _ _ _ _ _ hk]
      exact h

/-! ## Counting endpoints -/

theorem count_if_loop {α : Type} (p : α → Bool) : ∀ (l : List α) (n : Nat),
    l.foldl (fun n x => if p x then n + 1 else n) n = n + (l.filter p).length := by
  intro l
  induction l with
  | nil => intro n; rfl
  | cons x t ih =>
    intro n
    rw [List.foldl_cons, ih]
    cases hp : p x with
    | true => simp only [if_true, List.filter_cons_of_pos hp, List.length_cons]; omega
    | false =>
      have : ¬ (p x = true) := by simp [hp]
      simp only [Bool.false_eq_true, if_false, List.filter_cons_of_neg this]

theorem count_if_eq {α : Type} (p : α → Bool) (l : List α) :
    count_if p l = (l.filter p).length := by
  unfold count_if
  rw [count_if_loop]
  omega

theorem count_loop {α : Type} (g : α → Nat) : ∀ (l : List α) (n : Nat),
    l.foldl (fun count it => count + g it) n = n + (l.map g).sum := by
  intro l
  induction l with
  | nil => intro n; rfl
  | cons x t ih =>
    intro n
    rw [List.foldl_cons, ih, List.map_cons, List.sum_cons]
    omega

/-- C8: each of `count_publishers`, `count_subscribers` and `count_services` is the sum,
over the records of the map, of the number of entries of the record's list for the
category whose topic is the argument; for three records with the publisher lists
`[{"a",[]}]`, `[{"a",[]}]` and `[{"b",[]}]` the publisher count is 2 for `"a"` and 1 for
`"b"`. -/
theorem count_aggregation (m : Cache) (t : Str) :
    count_publishers m t =
      (m.map (fun it =>
        (it.2.publishers.filter (fun e => decide (e.topic = t))).length)).sum ∧
    count_subscribers m t =
      (m.map (fun it =>
        (it.2.subscribers.filter (fun e => decide (e.topic = t))).length)).sum ∧
    count_services m t =
      (m.map (fun it =>
        (it.2.services.filter (fun e => decide (e.topic = t))).length)).sum ∧
    count_publishers
      [(['1'], { publishers := [{ topic := ['a'], types := [] }] }),
       (['2'], { publishers := [{ topic := ['a'], types := [] }] }),
       (['3'], { publishers := [{ topic := ['b'], types := [] }] })] ['a'] = 2 ∧
    count_publishers
      [(['1'], { publishers := [{ topic := ['a'], types := [] }] }),
       (['2'], { publishers := [{ topic := ['a'], types := [] }] }),
       (['3'], { publishers := [{ topic := ['b'], types := [] }] })] ['b'] = 1 := by
  refine ⟨?_, ?_, ?_, by decide, by decide⟩
  · unfold count_publishers
    simp only [count_if_eq]
    rw [count_loop (fun it : Str × Node =>
      (it.2.publishers.filter (fun e => decide (e.topic = t))).length)]
    omega
  · unfold count_subscribers
    simp only [count_if_eq]
    rw [count_loop (fun it : Str × Node =>
      (it.2.subscribers.filter (fun e => decide (e.topic = t))).length)]
    omega
  · unfold count_services
    simp only [count_if_eq]
    rw [count_loop (fun it : Str × Node =>
      (it.2.services.filter (fun e => decide (e.topic = t))).length)]
    omega

/-! ## Topic names and types -/

theorem StrSet.mem_insert (x z : Str) : ∀ s : StrSet, z ∈ StrSet.insert s x ↔ z = x ∨ z ∈ s := by
  intro s
  induction s with
  | nil => simp only [StrSet.insert, List.mem_singleton, List.not_mem_nil, or_false]
  | cons y t ih =>
    simp only [StrSet.insert]
    split
    · simp only [List.mem_cons]
    · split
      · rename_i h1 h2
        subst h2
        simp only [List.mem_cons]
        tauto
      · simp only [List.mem_cons, ih]
        tauto

theorem StrSet.insert_ascending (x : Str) : ∀ s : StrSet,
    s.Pairwise (fun a b => strLt a b = true) →
    (StrSet.insert s x).Pairwise (fun a b => strLt a b = true) := by
  intro s
  induction s with
  | nil => intro _; exact List.pairwise_singleton _ _
  | cons y t ih =>
    intro h
    rw [List.pairwise_cons] at h
    simp only [StrSet.insert]
    split
    · rename_i h1
      rw [List.pairwise_cons]
      refine ⟨?_, List.pairwise_cons.mpr h⟩
      intro z hz
      rcases List.mem_cons.mp hz with rfl | hz
      · exact h1
      · exact strLt_trans _ _ _ h1 (h.1 z hz)
    · split
      · exact List.pairwise_cons.mpr h
      · rename_i h1 h2
        rw [List.pairwise_cons]
        refine ⟨?_, ih h.2⟩
        intro z hz
        rcases (StrSet.mem_insert x z t).mp hz with e | hm
        · rw [e]
          exact strLt_total x y (by simpa using h1) h2
        · exact h.1 z hm

theorem StrSet.mem_insertRange (z : Str) : ∀ (xs : List Str) (s : StrSet),
    z ∈ StrSet.insertRange s xs ↔ z ∈ s ∨ z ∈ xs := by
  intro xs
  induction xs with
  | nil => intro s; simp only [StrSet.insertRange, List.foldl_nil, List.not_mem_nil, or_false]
  | cons x t ih =>
    intro s
    have := ih (StrSet.insert s x)
    simp only [StrSet.insertRange, List.foldl_cons, List.mem_cons] at this ⊢
    rw [this, StrSet.mem_insert]
    tauto

theorem StrSet.insertRange_ascending : ∀ (xs : List Str) (s : StrSet),
    s.Pairwise (fun a b => strLt a b = true) →
    (StrSet.insertRange s xs).Pairwise (fun a b => strLt a b = true) := by
  intro xs
  induction xs with
  | nil => intro s h; exact h
  | cons x t ih =>
    intro s h
    exact ih (StrSet.insert s x) (StrSet.insert_ascending x s h)

theorem addTopics_cons (acc : SMap StrSet) (it : Topic) (rest : List Topic) :
    addTopics acc (it :: rest) =
      addTopics
        (SMap.assign acc it.topic
          (StrSet.insertRange ((SMap.find acc it.topic).getD []) it.types)) rest := by
  unfold addTopics SMap.index
  rw [List.foldl_cons]
  cases h : SMap.find acc it.topic with
  | none => simp only [SMap.assign_assign, Option.getD_none]
  | some v => simp only [Option.getD_some]

theorem TopicView.congr {src src2 : Topic → Prop} {r : SMap StrSet} (h : ∀ e, src e ↔ src2 e)
    (hv : TopicView src r) : TopicView src2 r := by
  have : src = src2 := funext (fun e => propext (h e))
  rw [← this]
  exact hv

theorem TopicView.empty : TopicView (fun _ => False) [] := by
  refine ⟨List.Pairwise.nil, fun x => ⟨?_, ?_⟩⟩
  · simp only [SMap.find, Option.isSome_none, Bool.false_eq_true, false_and, exists_false]
  · intro s h
    simp only [SMap.find, reduceCtorEq] at h

theorem TopicView.step {src : Topic → Prop} {acc : SMap StrSet} (it : Topic)
    (hv : TopicView src acc) :
    TopicView (fun e => src e ∨ e = it)
      (SMap.assign acc it.topic
        (StrSet.insertRange ((SMap.find acc it.topic).getD []) it.types)) := by
  obtain ⟨hasc, hx⟩ := hv
  refine ⟨SMap.assign_ascending _ _ acc hasc, fun x => ?_⟩
  by_cases hk : x = it.topic
  · subst hk
    rw [SMap.find_assign_self]
    refine ⟨?_, ?_⟩
    · simp only [Option.isSome_some, true_iff]
      exact ⟨it, Or.inr rfl, rfl⟩
    · intro s hs
      cases hs
      cases hf : SMap.find acc it.topic with
      | none =>
        have hnone : ¬ ∃ e, src e ∧ e.topic = it.topic := by
          rw [← (hx it.topic).1, hf]
          simp
        refine ⟨StrSet.insertRange_ascending _ _ List.Pairwise.nil, fun ty => ?_⟩
        rw [StrSet.mem_insertRange]
        simp only [Option.getD_none, List.not_mem_nil, false_or]
        constructor
        · intro h
          exact ⟨it, Or.inr rfl, rfl, h⟩
        · rintro ⟨e, he | he, het, hty⟩
          · exact absurd ⟨e, he, het⟩ hnone
          · rw [he] at hty
            exact hty
      | some v =>
        obtain ⟨hvasc, hvmem⟩ := (hx it.topic).2 v hf
        refine ⟨StrSet.insertRange_ascending _ _ hvasc, fun ty => ?_⟩
        rw [StrSet.mem_insertRange]
        simp only [Option.getD_some]
        rw [hvmem ty]
        constructor
        · rintro (⟨e, he, het, hty⟩ | h)
          · exact ⟨e, Or.inl he, het, hty⟩
          · exact ⟨it, Or.inr rfl, rfl, h⟩
        · rintro ⟨e, he | he, het, hty⟩
          · exact Or.inl ⟨e, he, het, hty⟩
          · rw [he] at hty
            exact Or.inr hty
  · rw [SMap.find_assign_of_ne _ _ _ hk]
    have hiff : (∃ e, (src e ∨ e = it) ∧ e.topic = x) ↔ ∃ e, src e ∧ e.topic = x := by
      constructor
      · rintro ⟨e, he | he, het⟩
        · exact ⟨e, he, het⟩
        · rw [he] at het
          exact absurd het.symm hk
      · rintro ⟨e, he, het⟩
        exact ⟨e, Or.inl he, het⟩
    refine ⟨by rw [hiff]; exact (hx x).1, ?_⟩
    intro s hs
    obtain ⟨hsasc, hsmem⟩ := (hx x).2 s hs
    refine ⟨hsasc, fun ty => ?_⟩
    rw [hsmem ty]
    constructor
    · rintro ⟨e, he, het, hty⟩
      exact ⟨e, Or.inl he, het, hty⟩
    · rintro ⟨e, he | he, het, hty⟩
      · exact ⟨e, he, het, hty⟩
      · rw [he] at het
        exact absurd het.symm hk

theorem TopicView.of_addTopics : ∀ (topics : List Topic) (src : Topic → Prop) (acc : SMap StrSet),
    TopicView src acc → TopicView (fun e => src e ∨ e ∈ topics) (addTopics acc topics) := by
  intro topics
  induction topics with
  | nil =>
    intro src acc hv
    refine TopicView.congr ?_ hv
    intro e
    simp only [List.not_mem_nil, or_false]
  | cons it rest ih =>
    intro src acc hv
    rw [addTopics_cons]
    refine TopicView.congr ?_ (ih _ _ (TopicView.step it hv))
    intro e
    simp only [List.mem_cons]
    tauto

theorem get_topic_names_and_types_loop : ∀ (l : Cache) (src : Topic → Prop) (acc : SMap StrSet),
    TopicView src acc →
    TopicView
      (fun e => src e ∨ ∃ it ∈ l,
        e ∈ it.2.subscribers ∨ e ∈ it.2.publishers ∨ e ∈ it.2.services)
      (l.foldl
        (fun names_and_types uuid_node_pair =>
          addTopics
            (addTopics (addTopics names_and_types uuid_node_pair.2.subscribers)
              uuid_node_pair.2.publishers)
            uuid_node_pair.2.services)
        acc) := by
  intro l
  induction l with
  | nil =>
    intro src acc hv
    refine TopicView.congr ?_ hv
    intro e
    simp only [List.not_mem_nil, false_and, exists_false, or_false]
  | cons x rest ih =>
    intro src acc hv
    rw [List.foldl_cons]
    have h3 := TopicView.of_addTopics x.2.services _ _
      (TopicView.of_addTopics x.2.publishers _ _ (TopicView.of_addTopics x.2.subscribers _ _ hv))
    refine TopicView.congr ?_ (ih _ _ h3)
    intro e
    have hprop : ∀ S A B C R : Prop,
        ((((S ∨ A) ∨ B) ∨ C) ∨ R) ↔ (S ∨ (A ∨ B ∨ C) ∨ R) := by
      intros
      tauto
    simp only [List.mem_cons, exists_eq_or_imp]
    exact hprop _ _ _ _ _

/-- C9: `get_topic_names_and_types` returns the map whose keys are exactly the topic
names of the subscriber, publisher and service endpoints of the cached records and whose
set for a key is exactly the union of the type names of all these endpoints with that
topic name; two records publishing `"x"` with the types `["T1"]` and `["T2"]` give the
set `{"T1","T2"}` for `"x"`. -/
theorem global_type_set_union (m : Cache) :
    TopicView
      (fun e => ∃ it ∈ m,
        e ∈ it.2.subscribers ∨ e ∈ it.2.publishers ∨ e ∈ it.2.services)
      (get_topic_names_and_types m) ∧
    SMap.find
      (get_topic_names_and_types
        [(['1'], { publishers := [{ topic := ['x'], types := [['T', '1']] }] }),
         (['2'], { publishers := [{ topic := ['x'], types := [['T', '2']] }] })])
      ['x'] = some [['T', '1'], ['T', '2']] := by
  refine ⟨?_, by decide⟩
  refine TopicView.congr ?_ (get_topic_names_and_types_loop m _ [] TopicView.empty)
  intro e
  simp only [false_or]

/-! ## Endpoints by node -/

theorem find_node_eq_none (m : Cache) (name namespace_ : Str)
    (h : ∀ it ∈ m, ¬ (it.2.name = name ∧ it.2.namespace_ = namespace_)) :
    find_node m name namespace_ = none := by
  unfold find_node
  rw [List.find?_eq_none]
  intro it hit
  simpa using h it hit

theorem find_node_least (name namespace_ : Str) (it : Str × Node)
    (hn : it.2.name = name) (hs : it.2.namespace_ = namespace_) : ∀ m : Cache,
    SMap.Ascending m → it ∈ m →
    (∀ other ∈ m, other.2.name = name → other.2.namespace_ = namespace_ →
      other.1 = it.1 ∨ strLt it.1 other.1 = true) →
    find_node m name namespace_ = some it := by
  intro m
  induction m with
  | nil => intro _ h _; cases h
  | cons x t ih =>
    intro hasc hmem hleast
    unfold SMap.Ascending at hasc ih
    rw [List.pairwise_cons] at hasc
    unfold find_node at ih ⊢
    by_cases hx : x.2.name = name ∧ x.2.namespace_ = namespace_
    · have hxit : x = it := by
        rcases List.mem_cons.mp hmem with e | hmem2
        · exact e.symm
        · exfalso
          have h1 := hasc.1 it hmem2
          rcases hleast x (List.mem_cons_self _ _) hx.1 hx.2 with e | h2
          · rw [e, strLt_irrefl] at h1
            cases h1
          · have := strLt_trans _ _ _ h1 h2
            rw [strLt_irrefl] at this
            cases this
      rw [List.find?_cons_of_pos]
      · rw [hxit]
      · simpa using hx
    · rw [List.find?_cons_of_neg]
      · refine ih hasc.2 ?_ (fun other ho => hleast other (List.mem_cons_of_mem _ ho))
        rcases List.mem_cons.mp hmem with e | hmem2
        · exfalso
          apply hx
          rw [← e]
          exact ⟨hn, hs⟩
        · exact hmem2
      · simpa using hx

/-- C10: the three `get_*_names_and_types_by_node` methods return the empty map when no
cached record has the given name and namespace; otherwise, with `it` the entry of least
identity among those that have them, the first such in iteration order, the result is
built from the list of `it` for the category alone: its keys are exactly the topic names
in that list and its set for a key is the union of the type names of the entries of the
list with that topic name. -/
theorem per_node_endpoint_lookup (m : Cache) (name namespace_ : Str)
    (hasc : SMap.Ascending m) :
    ((∀ it ∈ m, ¬ (it.2.name = name ∧ it.2.namespace_ = namespace_)) →
      get_subscriber_names_and_types_by_node m name namespace_ = [] ∧
      get_publisher_names_and_types_by_node m name namespace_ = [] ∧
      get_service_names_and_types_by_node m name namespace_ = []) ∧
    (∀ it ∈ m, it.2.name = name → it.2.namespace_ = namespace_ →
      (∀ other ∈ m, other.2.name = name → other.2.namespace_ = namespace_ →
        other.1 = it.1 ∨ strLt it.1 other.1 = true) →
      (get_subscriber_names_and_types_by_node m name namespace_ =
          addTopics [] it.2.subscribers ∧
        TopicView (fun e => e ∈ it.2.subscribers)
          (get_subscriber_names_and_types_by_node m name namespace_)) ∧
      (get_publisher_names_and_types_by_node m name namespace_ =
          addTopics [] it.2.publishers ∧
        TopicView (fun e => e ∈ it.2.publishers)
          (get_publisher_names_and_types_by_node m name namespace_)) ∧
      (get_service_names_and_types_by_node m name namespace_ =
          addTopics [] it.2.services ∧
        TopicView (fun e => e ∈ it.2.services)
          (get_service_names_and_types_by_node m name namespace_))) := by
  have hview : ∀ topics : List Topic, TopicView (fun e => e ∈ topics) (addTopics [] topics) := by
    intro topics
    refine TopicView.congr ?_ (TopicView.of_addTopics topics _ [] TopicView.empty)
    intro e
    simp only [false_or]
  constructor
  · intro h
    have hf := find_node_eq_none m name namespace_ h
    simp only [get_subscriber_names_and_types_by_node, get_publisher_names_and_types_by_node,
      get_service_names_and_types_by_node, hf, and_self]
  · intro it hmem hn hs hleast
    have hf := find_node_least name namespace_ it hn hs m hasc hmem hleast
    simp only [get_subscriber_names_and_types_by_node, get_publisher_names_and_types_by_node,
      get_service_names_and_types_by_node, hf, true_and]
    exact ⟨hview _, hview _, hview _⟩

theorem per_node_endpoint_lookup_witness :
    get_publisher_names_and_types_by_node
      [(['1'], { name := ['n'], publishers := [{ topic := ['x'], types := [['A']] }] }),
       (['2'], { name := ['n'], publishers := [{ topic := ['y'], types := [['B']] }] })]
      ['n'] ['/'] =
    addTopics [] [{ topic := ['x'], types := [['A']] }] :=
  ((per_node_endpoint_lookup
      [(['1'], { name := ['n'], publishers := [{ topic := ['x'], types := [['A']] }] }),
       (['2'], { name := ['n'], publishers := [{ topic := ['y'], types := [['B']] }] })]
      ['n'] ['/'] (by decide)).2
    (['1'], { name := ['n'], publishers := [{ topic := ['x'], types := [['A']] }] })
    (by decide) (by decide) (by decide) (by decide)).2.1.1

/-! ## Strings written by the encoder -/

theorem sizeSub_of_le (a b : Nat) (h : a ≤ b) (hb : b < SIZE_MOD) : sizeSub b a = b - a := by
  unfold sizeSub
  unfold SIZE_MOD at hb ⊢
  omega

theorem not_marker_prefix_of_short (a b : Str) (h1 : 1 ≤ a.length) (h2 : a.length < 7) :
    ¬ typesMarker <+: a ++ typesMarker ++ b := by
  intro h
  have h := List.isPrefixOf_iff_prefix.mpr h
  rcases a with _ | ⟨c1, _ | ⟨c2, _ | ⟨c3, _ | ⟨c4, _ | ⟨c5, _ | ⟨c6, _ | ⟨c7, a⟩⟩⟩⟩⟩⟩⟩
  · simp at h1
  all_goals first
    | (simp only [List.length_cons] at h2; omega)
    | (simp [typesMarker, List.isPrefixOf] at h)

theorem findAux_marker (b : Str) : ∀ (a : Str) (i : Nat), ¬ typesMarker <:+: a →
    findAux typesMarker (a ++ typesMarker ++ b) i = some (i + a.length) := by
  intro a
  induction a with
  | nil =>
    intro i _
    simp [findAux, typesMarker, List.isPrefixOf]
  | cons c a ih =>
    intro i h
    rw [List.infix_cons_iff] at h
    have hnp : List.isPrefixOf typesMarker (c :: (a ++ typesMarker ++ b)) = false := by
      rw [← Bool.not_eq_true, List.isPrefixOf_iff_prefix]
      intro hp
      by_cases hl : (c :: a).length < 7
      · exact not_marker_prefix_of_short (c :: a) b (by simp) hl (by simpa using hp)
      · apply h
        left
        have h2 : c :: a <+: c :: (a ++ typesMarker ++ b) := by
          have := List.prefix_append (c :: a) (typesMarker ++ b)
          rwa [List.cons_append, ← List.append_assoc] at this
        exact List.prefix_of_prefix_length_le hp h2 (by simp [typesMarker] at hl ⊢; omega)
    show findAux typesMarker (c :: (a ++ typesMarker ++ b)) i = _
    rw [findAux, hnp, if_neg (by simp), ih (i + 1) (fun hi => h (Or.inr hi))]
    simp only [List.length_cons]
    congr 1
    omega

theorem find_marker (a b : Str) (h : ¬ typesMarker <:+: a) :
    find (a ++ typesMarker ++ b) typesMarker 0 = some a.length := by
  unfold find
  simp only [Nat.zero_le, if_true, List.drop_zero]
  rw [findAux_marker b a 0 h]
  simp

theorem findAux_comma_none : ∀ (s : Str) (i : Nat), ',' ∉ s → findAux [','] s i = none := by
  intro s
  induction s with
  | nil => intro i _; simp [findAux]
  | cons c t ih =>
    intro i h
    rw [List.mem_cons, not_or] at h
    have hc : List.isPrefixOf [','] (c :: t) = false := by
      simp [List.isPrefixOf]
      exact fun e => h.1 e
    simp only [findAux, hc, Bool.false_eq_true, if_false]
    exact ih (i + 1) h.2

theorem findAux_comma_some (r : Str) : ∀ (s : Str) (i : Nat), ',' ∉ s →
    findAux [','] (s ++ ',' :: r) i = some (i + s.length) := by
  intro s
  induction s with
  | nil => intro i _; simp [findAux, List.isPrefixOf]
  | cons c t ih =>
    intro i h
    rw [List.mem_cons, not_or] at h
    have hc : List.isPrefixOf [','] (c :: (t ++ ',' :: r)) = false := by
      simp [List.isPrefixOf]
      exact fun e => h.1 e
    show findAux [','] (c :: (t ++ ',' :: r)) i = _
    rw [findAux, hc, if_neg (by simp), ih (i + 1) h.2]
    simp only [List.length_cons]
    congr 1
    omega

/-! ## What the decoder never returns -/

theorem findAux_comma_first : ∀ (s : Str) (i e : Nat), findAux [','] s i = some e →
    i ≤ e ∧ ',' ∉ s.take (e - i) := by
  intro s
  induction s with
  | nil => intro i e h; simp [findAux] at h
  | cons c t ih =>
    intro i e h
    rw [findAux] at h
    split at h
    · cases h
      simp
    · rename_i hc
      obtain ⟨h1, h2⟩ := ih (i + 1) e h
      refine ⟨by omega, ?_⟩
      have he : e - i = (e - (i + 1)) + 1 := by omega
      rw [he, List.take_succ_cons, List.mem_cons, not_or]
      refine ⟨?_, h2⟩
      intro hcc
      apply hc
      rw [← hcc]
      simp [List.isPrefixOf]

theorem find_comma_first (s : Str) (pos e : Nat) (h : find s [','] pos = some e) :
    pos ≤ e ∧ ',' ∉ (s.drop pos).take (e - pos) := by
  unfold find at h
  split at h
  · exact findAux_comma_first _ _ _ h
  · cases h

theorem findAux_comma_absent : ∀ (s : Str) (i : Nat), findAux [','] s i = none → ',' ∉ s := by
  intro s
  induction s with
  | nil => intro i _; simp
  | cons c t ih =>
    intro i h
    rw [findAux] at h
    split at h
    · cases h
    · rename_i hc
      rw [List.mem_cons, not_or]
      refine ⟨?_, ih (i + 1) h⟩
      intro hcc
      apply hc
      rw [← hcc]
      simp [List.isPrefixOf]

theorem find_comma_absent (s : Str) (pos : Nat) (h : find s [','] pos = none) :
    ',' ∉ substrFrom s pos := by
  unfold find at h
  unfold substrFrom
  split at h
  · exact findAux_comma_absent _ _ h
  · rename_i hp
    rw [List.drop_eq_nil_of_le (by omega)]
    simp

theorem sizeSub_le (a b : Nat) (h : a ≤ b) : sizeSub b a ≤ b - a := by
  unfold sizeSub SIZE_MOD
  omega

theorem typesLoop_parsed (s : Str) : ∀ (fuel : Nat) (p : Option Nat) (acc tys : List Str),
    typesLoop s fuel p acc = some tys → (∀ ty ∈ acc, ',' ∉ ty) →
    (∀ ty ∈ tys, ',' ∉ ty) ∧ (p ≠ none → tys ≠ []) ∧ (acc ≠ [] → tys ≠ []) := by
  intro fuel
  induction fuel with
  | zero =>
    intro p acc tys h hacc
    cases p with
    | none =>
      simp only [typesLoop, Option.some.injEq] at h
      subst h
      exact ⟨hacc, fun hn => absurd rfl hn, fun hn => hn⟩
    | some pos => simp [typesLoop] at h
  | succ n ih =>
    intro p acc tys h hacc
    cases p with
    | none =>
      simp only [typesLoop, Option.some.injEq] at h
      subst h
      exact ⟨hacc, fun hn => absurd rfl hn, fun hn => hn⟩
    | some pos =>
      rw [typesLoop] at h
      split at h
      · rename_i end_pos hf
        obtain ⟨hle, hno⟩ := find_comma_first s pos end_pos hf
        have hsub : ',' ∉ substr s pos (sizeSub end_pos pos) := by
          intro hm
          apply hno
          unfold substr at hm
          exact (List.take_subset_take_left _ (sizeSub_le pos end_pos hle)) hm
        have := ih _ _ _ h (by
          intro ty hty
          rcases List.mem_append.mp hty with h1 | h1
          · exact hacc ty h1
          · rw [List.mem_singleton.mp h1]
            exact hsub)
        exact ⟨this.1, fun _ => this.2.2 (by simp), fun _ => this.2.2 (by simp)⟩
      · rename_i hf
        have := ih _ _ _ h (by
          intro ty hty
          rcases List.mem_append.mp hty with h1 | h1
          · exact hacc ty h1
          · rw [List.mem_singleton.mp h1]
            exact find_comma_absent s pos hf)
        exact ⟨this.1, fun _ => this.2.2 (by simp), fun _ => this.2.2 (by simp)⟩

theorem process_topic_info_parsed (topic_str prefix_ : Str) (e : Topic)
    (h : process_topic_info topic_str prefix_ {} = some (true, e)) : e.Parsed := by
  unfold process_topic_info at h
  split at h
  · simp only at h
    split at h
    · rename_i types ht
      have := typesLoop_parsed topic_str _ _ _ _ ht (by simp)
      simp only [Option.some.injEq, Prod.mk.injEq, true_and] at h
      subst h
      exact ⟨this.2.1 (by simp), this.1⟩
    · cases h
  · simp at h

theorem forall_mem_append_singleton {α : Type} {p : α → Prop} {l : List α} {a : α}
    (hl : ∀ x ∈ l, p x) (ha : p a) : ∀ x ∈ l ++ [a], p x := by
  intro x hx
  rcases List.mem_append.mp hx with h | h
  · exact hl x h
  · rw [List.mem_singleton.mp h]
    exact ha

theorem decodeStep_parsed (P : Prefixes) (st st1 : Str × Node) (topic : Str)
    (hs : decodeStep P st topic = some st1) (hp : st.2.Parsed) : st1.2.Parsed := by
  unfold decodeStep at hs
  obtain ⟨h1, h2, h3⟩ := hp
  split at hs
  · cases hs; exact ⟨h1, h2, h3⟩
  split at hs
  · cases hs; exact ⟨h1, h2, h3⟩
  split at hs
  · cases hs; exact ⟨h1, h2, h3⟩
  split at hs
  · cases hs
  · rename_i e he
    cases hs
    exact ⟨forall_mem_append_singleton h1 (process_topic_info_parsed _ _ e he), h2, h3⟩
  split at hs
  · cases hs
  · rename_i e he
    cases hs
    exact ⟨h1, forall_mem_append_singleton h2 (process_topic_info_parsed _ _ e he), h3⟩
  split at hs
  · cases hs
  · rename_i e he
    cases hs
    exact ⟨h1, h2, forall_mem_append_singleton h3 (process_topic_info_parsed _ _ e he)⟩
  · cases hs; exact ⟨h1, h2, h3⟩

theorem decodeFrom_parsed (P : Prefixes) : ∀ (topics : List Str) (st st1 : Str × Node),
    decodeFrom P st topics = some st1 → st.2.Parsed → st1.2.Parsed := by
  intro topics
  induction topics with
  | nil =>
    intro st st1 h hp
    simp only [decodeFrom, Option.some.injEq] at h
    rw [← h]
    exact hp
  | cons t rest ih =>
    intro st st1 h hp
    obtain ⟨st2, h2⟩ := decodeStep_returns P st t
    simp only [decodeFrom, h2] at h
    exact ih st2 st1 h (decodeStep_parsed P st st2 t h2 hp)

theorem decodeLoop_parsed (P : Prefixes) (topics : List Str) (uuid : Str) (node : Node)
    (h : decodeLoop P topics = some (uuid, node)) : node.Parsed :=
  decodeFrom_parsed P topics _ _ h
    ⟨fun _ h => absurd h (List.not_mem_nil _), fun _ h => absurd h (List.not_mem_nil _),
      fun _ h => absurd h (List.not_mem_nil _)⟩

/-- C1, where the claim fails: whatever the six prefixes and the identity are, the
decoding loop does not give back a record that has a publisher without types, nor a
record that has a publisher with the type name `"x,y"`. -/
theorem round_trip_fails :
    (∀ (P : Prefixes) (identity : Str),
      decodeLoop P (Encode P identity { publishers := [{ topic := ['/', 'a'], types := [] }] })
        ≠ some (identity, { publishers := [{ topic := ['/', 'a'], types := [] }] })) ∧
    (∀ (P : Prefixes) (identity : Str),
      decodeLoop P
          (Encode P identity
            { publishers := [{ topic := ['/', 'a'], types := [['x', ',', 'y']] }] })
        ≠ some (identity,
            { publishers := [{ topic := ['/', 'a'], types := [['x', ',', 'y']] }] })) := by
  constructor
  · intro P identity h
    have := (decodeLoop_parsed P _ _ _ h).2.1 { topic := ['/', 'a'], types := [] }
      (List.mem_singleton.mpr rfl)
    exact this.1 rfl
  · intro P identity h
    have := (decodeLoop_parsed P _ _ _ h).2.1 { topic := ['/', 'a'], types := [['x', ',', 'y']] }
      (List.mem_singleton.mpr rfl)
    exact this.2 ['x', ',', 'y'] (List.mem_singleton.mpr rfl) (by decide)

/-! ## Reading back what the encoder wrote -/

theorem joinTypes_cons_cons (ty ty2 : Str) (tys : List Str) :
    joinTypes (ty :: ty2 :: tys) = ty ++ ',' :: joinTypes (ty2 :: tys) := by
  simp [joinTypes]

theorem typesLoop_joinTypes (s : Str) (hs : s.length < SIZE_MOD) : ∀ (tys : List Str) (ty : Str)
    (pos fuel : Nat) (acc : List Str),
    pos ≤ s.length → s.drop pos = joinTypes (ty :: tys) → (∀ t ∈ ty :: tys, ',' ∉ t) →
    s.length + 1 ≤ fuel + pos →
    typesLoop s fuel (some pos) acc = some (acc ++ ty :: tys) := by
  intro tys
  induction tys with
  | nil =>
    intro ty pos fuel acc hpos hd hc hfuel
    obtain ⟨n, rfl⟩ : ∃ n, fuel = n + 1 := ⟨fuel - 1, by omega⟩
    have hty : s.drop pos = ty := by simpa [joinTypes] using hd
    have hf : find s [','] pos = none := by
      unfold find
      rw [if_pos hpos, hty]
      exact findAux_comma_none ty pos (hc ty (List.mem_cons_self _ _))
    rw [typesLoop, hf]
    simp only [substrFrom, hty]
    cases n <;> rfl
  | cons ty2 tys ih =>
    intro ty pos fuel acc hpos hd hc hfuel
    obtain ⟨n, rfl⟩ : ∃ n, fuel = n + 1 := ⟨fuel - 1, by omega⟩
    rw [joinTypes_cons_cons] at hd
    have hlen : (s.drop pos).length = ty.length + 1 + (joinTypes (ty2 :: tys)).length := by
      rw [hd]
      simp only [List.length_append, List.length_cons]
      omega
    rw [List.length_drop] at hlen
    have hf : find s [','] pos = some (pos + ty.length) := by
      unfold find
      rw [if_pos hpos, hd]
      exact findAux_comma_some _ ty pos (hc ty (List.mem_cons_self _ _))
    have hsub : substr s pos (sizeSub (pos + ty.length) pos) = ty := by
      rw [sizeSub_of_le _ _ (by omega) (by omega)]
      unfold substr
      rw [hd, Nat.add_sub_cancel_left, List.take_left]
    have hrest : s.drop (pos + ty.length + 1) = joinTypes (ty2 :: tys) := by
      rw [Nat.add_assoc, ← List.drop_drop, hd]
      have : ty ++ ',' :: joinTypes (ty2 :: tys) = (ty ++ [',']) ++ joinTypes (ty2 :: tys) := by
        simp
      rw [this]
      have hl : ty.length + 1 = (ty ++ [',']).length := by simp
      rw [hl, List.drop_left]
    rw [typesLoop, hf]
    simp only
    rw [hsub, ih ty2 (pos + ty.length + 1) n (acc ++ [ty]) (by omega) hrest
      (fun t ht => hc t (List.mem_cons_of_mem _ ht)) (by omega)]
    simp

theorem stripSlash_of_head {s : Str} (h : s.head? = some '/') : s = '/' :: stripSlash s := by
  cases s with
  | nil => simp at h
  | cons c t =>
    simp only [List.head?_cons, Option.some.injEq] at h
    subst h
    rfl

theorem process_topic_info_encodeEndpoint (prefix_ : Str) (e : Topic)
    (h : EndpointOk prefix_ e) :
    process_topic_info (encodeEndpoint prefix_ e) prefix_ {} = some (true, e) := by
  obtain ⟨htopic, hne, hcomma, hmark, hlen⟩ := h
  obtain ⟨topic, types⟩ := e
  simp only at htopic hne hcomma hmark
  obtain ⟨ty, tys, rfl⟩ : ∃ ty tys, types = ty :: tys := by
    cases types with
    | nil => exact absurd rfl hne
    | cons ty tys => exact ⟨ty, tys, rfl⟩
  have henc : encodeEndpoint prefix_ { topic := topic, types := ty :: tys } =
      (prefix_ ++ stripSlash topic) ++ typesMarker ++ joinTypes (ty :: tys) := by
    simp [encodeEndpoint]
  have henc2 : encodeEndpoint prefix_ { topic := topic, types := ty :: tys } =
      prefix_ ++ (stripSlash topic ++ typesMarker ++ joinTypes (ty :: tys)) := by
    simp [encodeEndpoint]
  have hl : (encodeEndpoint prefix_ { topic := topic, types := ty :: tys }).length =
      prefix_.length + (stripSlash topic).length + 7 + (joinTypes (ty :: tys)).length := by
    rw [henc]
    simp only [List.length_append, typesMarker, List.length_cons, List.length_nil]
  have hf1 : find (encodeEndpoint prefix_ { topic := topic, types := ty :: tys }) prefix_ 0
      = some 0 := by
    rw [henc2]
    exact find_append_self _ _
  have hf2 : find (encodeEndpoint prefix_ { topic := topic, types := ty :: tys }) typesMarker 0
      = some (prefix_.length + (stripSlash topic).length) := by
    rw [henc, find_marker _ _ hmark, List.length_append]
  have hname : substr (encodeEndpoint prefix_ { topic := topic, types := ty :: tys })
      (0 + prefix_.length)
      (sizeSub (prefix_.length + (stripSlash topic).length) (0 + prefix_.length))
      = stripSlash topic := by
    rw [Nat.zero_add, sizeSub_of_le _ _ (by omega) (by omega), Nat.add_sub_cancel_left]
    unfold substr
    rw [henc2, List.drop_left, List.append_assoc, List.take_left]
  have hdrop : (encodeEndpoint prefix_ { topic := topic, types := ty :: tys }).drop
      (prefix_.length + (stripSlash topic).length + typesMarker.length) =
      joinTypes (ty :: tys) := by
    rw [henc]
    have : prefix_.length + (stripSlash topic).length + typesMarker.length =
        (prefix_ ++ stripSlash topic ++ typesMarker).length := by
      simp only [List.length_append]
    rw [this, List.drop_left]
  have hloop := typesLoop_joinTypes _ hlen tys ty
    (prefix_.length + (stripSlash topic).length + typesMarker.length)
    ((encodeEndpoint prefix_ { topic := topic, types := ty :: tys }).length + 1) []
    (by rw [hl]; simp [typesMarker]) hdrop hcomma (by omega)
  unfold process_topic_info
  rw [hf1]
  simp only
  rw [hf2]
  simp only
  rw [hloop, hname]
  simp only [List.nil_append, List.singleton_append, Option.some.injEq, Prod.mk.injEq, true_and,
    Topic.mk.injEq, and_true]
  exact (stripSlash_of_head htopic).symm

theorem process_topic_info_absent (topic_str prefix_ : Str) (topic : Topic)
    (h : ¬ prefix_ <:+: topic_str) :
    process_topic_info topic_str prefix_ topic = some (false, topic) := by
  unfold process_topic_info
  rw [(find_eq_none_iff topic_str prefix_).mpr h]

theorem decodeStep_identity (P : Prefixes) (st : Str × Node) (identity : Str) :
    decodeStep P st (P.dps_uuid_prefix ++ identity) = some (identity, st.2) := by
  simp [decodeStep, find_append_self, substrFrom]

theorem decodeStep_namespace (P : Prefixes) (st : Str × Node) (x : Str)
    (h : ¬ P.dps_uuid_prefix <:+: P.dps_namespace_prefix ++ x) :
    decodeStep P st (P.dps_namespace_prefix ++ x) =
      some (st.1, { st.2 with namespace_ := '/' :: x }) := by
  unfold decodeStep
  rw [(find_eq_none_iff _ _).mpr h]
  simp [find_append_self, substrFrom]

theorem decodeStep_name (P : Prefixes) (st : Str × Node) (x : Str)
    (h1 : ¬ P.dps_uuid_prefix <:+: P.dps_name_prefix ++ x)
    (h2 : ¬ P.dps_namespace_prefix <:+: P.dps_name_prefix ++ x) :
    decodeStep P st (P.dps_name_prefix ++ x) = some (st.1, { st.2 with name := x }) := by
  unfold decodeStep
  rw [(find_eq_none_iff _ _).mpr h1, (find_eq_none_iff _ _).mpr h2]
  simp [find_append_self, substrFrom]

theorem decodeStep_subscriber (P : Prefixes) (st : Str × Node) (e : Topic)
    (hok : EndpointOk P.dps_subscriber_prefix e)
    (h1 : ¬ P.dps_uuid_prefix <:+: encodeEndpoint P.dps_subscriber_prefix e)
    (h2 : ¬ P.dps_namespace_prefix <:+: encodeEndpoint P.dps_subscriber_prefix e)
    (h3 : ¬ P.dps_name_prefix <:+: encodeEndpoint P.dps_subscriber_prefix e) :
    decodeStep P st (encodeEndpoint P.dps_subscriber_prefix e) =
      some (st.1, { st.2 with subscribers := st.2.subscribers ++ [e] }) := by
  unfold decodeStep
  rw [(find_eq_none_iff _ _).mpr h1, (find_eq_none_iff _ _).mpr h2,
    (find_eq_none_iff _ _).mpr h3, process_topic_info_encodeEndpoint _ e hok]

theorem decodeStep_publisher (P : Prefixes) (st : Str × Node) (e : Topic)
    (hok : EndpointOk P.dps_publisher_prefix e)
    (h1 : ¬ P.dps_uuid_prefix <:+: encodeEndpoint P.dps_publisher_prefix e)
    (h2 : ¬ P.dps_namespace_prefix <:+: encodeEndpoint P.dps_publisher_prefix e)
    (h3 : ¬ P.dps_name_prefix <:+: encodeEndpoint P.dps_publisher_prefix e)
    (h4 : ¬ P.dps_subscriber_prefix <:+: encodeEndpoint P.dps_publisher_prefix e) :
    decodeStep P st (encodeEndpoint P.dps_publisher_prefix e) =
      some (st.1, { st.2 with publishers := st.2.publishers ++ [e] }) := by
  unfold decodeStep
  rw [(find_eq_none_iff _ _).mpr h1, (find_eq_none_iff _ _).mpr h2,
    (find_eq_none_iff _ _).mpr h3, process_topic_info_absent _ _ _ h4,
    process_topic_info_encodeEndpoint _ e hok]

theorem decodeStep_service (P : Prefixes) (st : Str × Node) (e : Topic)
    (hok : EndpointOk P.dps_service_prefix e)
    (h1 : ¬ P.dps_uuid_prefix <:+: encodeEndpoint P.dps_service_prefix e)
    (h2 : ¬ P.dps_namespace_prefix <:+: encodeEndpoint P.dps_service_prefix e)
    (h3 : ¬ P.dps_name_prefix <:+: encodeEndpoint P.dps_service_prefix e)
    (h4 : ¬ P.dps_subscriber_prefix <:+: encodeEndpoint P.dps_service_prefix e)
    (h5 : ¬ P.dps_publisher_prefix <:+: encodeEndpoint P.dps_service_prefix e) :
    decodeStep P st (encodeEndpoint P.dps_service_prefix e) =
      some (st.1, { st.2 with services := st.2.services ++ [e] }) := by
  unfold decodeStep
  rw [(find_eq_none_iff _ _).mpr h1, (find_eq_none_iff _ _).mpr h2,
    (find_eq_none_iff _ _).mpr h3, process_topic_info_absent _ _ _ h4,
    process_topic_info_absent _ _ _ h5, process_topic_info_encodeEndpoint _ e hok]

theorem decodeFrom_append (P : Prefixes) : ∀ (l1 l2 : List Str) (st st1 : Str × Node),
    decodeFrom P st l1 = some st1 → decodeFrom P st (l1 ++ l2) = decodeFrom P st1 l2 := by
  intro l1
  induction l1 with
  | nil =>
    intro l2 st st1 h
    simp only [decodeFrom, Option.some.injEq] at h
    rw [h, List.nil_append]
  | cons t rest ih =>
    intro l2 st st1 h
    obtain ⟨st2, h2⟩ := decodeStep_returns P st t
    simp only [decodeFrom, h2, List.cons_append] at h ⊢
    exact ih l2 st2 st1 h

theorem decodeFrom_subscribers (P : Prefixes) : ∀ (l : List Topic) (st : Str × Node),
    (∀ e ∈ l,
      EndpointOk P.dps_subscriber_prefix e ∧
      ¬ P.dps_uuid_prefix <:+: encodeEndpoint P.dps_subscriber_prefix e ∧
      ¬ P.dps_namespace_prefix <:+: encodeEndpoint P.dps_subscriber_prefix e ∧
      ¬ P.dps_name_prefix <:+: encodeEndpoint P.dps_subscriber_prefix e) →
    decodeFrom P st (l.map (encodeEndpoint P.dps_subscriber_prefix)) =
      some (st.1, { st.2 with subscribers := st.2.subscribers ++ l }) := by
  intro l
  induction l with
  | nil => intro st _; simp [decodeFrom]
  | cons e rest ih =>
    intro st h
    obtain ⟨hok, h1, h2, h3⟩ := h e (List.mem_cons_self _ _)
    simp only [List.map_cons, decodeFrom, decodeStep_subscriber P st e hok h1 h2 h3]
    rw [ih _ (fun x hx => h x (List.mem_cons_of_mem _ hx))]
    simp

theorem decodeFrom_publishers (P : Prefixes) : ∀ (l : List Topic) (st : Str × Node),
    (∀ e ∈ l,
      EndpointOk P.dps_publisher_prefix e ∧
      ¬ P.dps_uuid_prefix <:+: encodeEndpoint P.dps_publisher_prefix e ∧
      ¬ P.dps_namespace_prefix <:+: encodeEndpoint P.dps_publisher_prefix e ∧
      ¬ P.dps_name_prefix <:+: encodeEndpoint P.dps_publisher_prefix e ∧
      ¬ P.dps_subscriber_prefix <:+: encodeEndpoint P.dps_publisher_prefix e) →
    decodeFrom P st (l.map (encodeEndpoint P.dps_publisher_prefix)) =
      some (st.1, { st.2 with publishers := st.2.publishers ++ l }) := by
  intro l
  induction l with
  | nil => intro st _; simp [decodeFrom]
  | cons e rest ih =>
    intro st h
    obtain ⟨hok, h1, h2, h3, h4⟩ := h e (List.mem_cons_self _ _)
    simp only [List.map_cons, decodeFrom, decodeStep_publisher P st e hok h1 h2 h3 h4]
    rw [ih _ (fun x hx => h x (List.mem_cons_of_mem _ hx))]
    simp

theorem decodeFrom_services (P : Prefixes) : ∀ (l : List Topic) (st : Str × Node),
    (∀ e ∈ l,
      EndpointOk P.dps_service_prefix e ∧
      ¬ P.dps_uuid_prefix <:+: encodeEndpoint P.dps_service_prefix e ∧
      ¬ P.dps_namespace_prefix <:+: encodeEndpoint P.dps_service_prefix e ∧
      ¬ P.dps_name_prefix <:+: encodeEndpoint P.dps_service_prefix e ∧
      ¬ P.dps_subscriber_prefix <:+: encodeEndpoint P.dps_service_prefix e ∧
      ¬ P.dps_publisher_prefix <:+: encodeEndpoint P.dps_service_prefix e) →
    decodeFrom P st (l.map (encodeEndpoint P.dps_service_prefix)) =
      some (st.1, { st.2 with services := st.2.services ++ l }) := by
  intro l
  induction l with
  | nil => intro st _; simp [decodeFrom]
  | cons e rest ih =>
    intro st h
    obtain ⟨hok, h1, h2, h3, h4, h5⟩ := h e (List.mem_cons_self _ _)
    simp only [List.map_cons, decodeFrom, decodeStep_service P st e hok h1 h2 h3 h4 h5]
    rw [ih _ (fun x hx => h x (List.mem_cons_of_mem _ hx))]
    simp

/-- C1, as amended: for every identity and every record that is `WellFormed` for the
prefixes, so whose namespace and topic names begin with `/`, whose endpoints have at
least one type and no comma in a type, have no `"&types="` in the category prefix
followed by the topic name and a topic string shorter than `2 ^ 64`, and whose topic
strings contain no prefix that is tested before their own, the decoding loop applied to
`Encode` of the identity and the record gives back exactly the identity and the
record. -/
theorem round_trip_well_formed (P : Prefixes) (identity : Str) (r : Node)
    (h : WellFormed P r) :
    decodeLoop P (Encode P identity r) = some (identity, r) := by
  obtain ⟨hns, hN, ⟨hM1, hM2⟩, hsub, hpub, hsvc⟩ := h
  have h3 : decodeFrom P ([], {})
      [P.dps_uuid_prefix ++ identity, P.dps_namespace_prefix ++ stripSlash r.namespace_,
        P.dps_name_prefix ++ r.name] =
      some (identity, { name := r.name, namespace_ := '/' :: stripSlash r.namespace_ }) := by
    simp only [decodeFrom, decodeStep_identity, decodeStep_namespace P _ _ hN,
      decodeStep_name P _ _ hM1 hM2]
  unfold decodeLoop Encode
  rw [decodeFrom_append P _ _ _ _
    (by rw [decodeFrom_append P _ _ _ _
        (by rw [decodeFrom_append P _ _ _ _ h3]; exact decodeFrom_subscribers P _ _ hsub)]
        exact decodeFrom_publishers P _ _ hpub)]
  rw [decodeFrom_services P _ _ hsvc]
  obtain ⟨name, ns, subs, pubs, svcs⟩ := r
  simp only [List.nil_append, Option.some.injEq, Prod.mk.injEq, true_and, Node.mk.injEq,
    and_true]
  exact (stripSlash_of_head hns).symm

theorem round_trip_well_formed_witness :
    decodeLoop samplePrefixes
      (Encode samplePrefixes ['u', '1']
        { name := ['n'], namespace_ := ['/', 'w'],
          subscribers := [{ topic := ['/', 'a'], types := [['A'], ['B']] }],
          publishers := [{ topic := ['/', 'b'], types := [[]] }],
          services := [{ topic := ['/', 'c'], types := [['C']] }] }) =
    some (['u', '1'],
        { name := ['n'], namespace_ := ['/', 'w'],
          subscribers := [{ topic := ['/', 'a'], types := [['A'], ['B']] }],
          publishers := [{ topic := ['/', 'b'], types := [[]] }],
          services := [{ topic := ['/', 'c'], types := [['C']] }] }) :=
  round_trip_well_formed samplePrefixes ['u', '1']
    { name := ['n'], namespace_ := ['/', 'w'],
      subscribers := [{ topic := ['/', 'a'], types := [['A'], ['B']] }],
      publishers := [{ topic := ['/', 'b'], types := [[]] }],
      services := [{ topic := ['/', 'c'], types := [['C']] }] } (by decide)

/-! ## Which prefix a topic string is read with -/

theorem find_some_of_infix (s pat : Str) (h : pat <:+: s) : ∃ pos, find s pat 0 = some pos := by
  cases hf : find s pat 0 with
  | some pos => exact ⟨pos, rfl⟩
  | none => exact absurd h ((find_eq_none_iff s pat).mp hf)

theorem process_topic_info_found (topic_str prefix_ : Str) (topic : Topic)
    (h : prefix_ <:+: topic_str) :
    ∃ e, process_topic_info topic_str prefix_ topic = some (true, e) := by
  obtain ⟨pos, hpos⟩ := find_some_of_infix topic_str prefix_ h
  obtain ⟨r, hr⟩ := process_topic_info_returns topic_str prefix_ topic
  unfold process_topic_info at hr ⊢
  rw [hpos] at hr ⊢
  simp only at hr ⊢
  split at hr
  · exact ⟨_, rfl⟩
  · cases hr

theorem decodeStep_unrecognized (P : Prefixes) (st : Str × Node) (t : Str)
    (h : Unrecognized P t) : decodeStep P st t = some st := by
  obtain ⟨h1, h2, h3, h4, h5, h6⟩ := h
  unfold decodeStep
  rw [(find_eq_none_iff _ _).mpr h1, (find_eq_none_iff _ _).mpr h2,
    (find_eq_none_iff _ _).mpr h3, process_topic_info_absent _ _ _ h4,
    process_topic_info_absent _ _ _ h5, process_topic_info_absent _ _ _ h6]

theorem decodeFrom_padded (P : Prefixes) (topics padded : List Str) (h : Padded P topics padded) :
    ∀ st : Str × Node, decodeFrom P st padded = decodeFrom P st topics := by
  induction h with
  | nil => intro st; rfl
  | keep t _ ih =>
    intro st
    obtain ⟨st1, h1⟩ := decodeStep_returns P st t
    simp only [decodeFrom, h1]
    exact ih st1
  | pad x hx _ ih =>
    intro st
    simp only [decodeFrom, decodeStep_unrecognized P st x hx]
    exact ih st

/-- C11: putting strings that contain none of the six prefixes into a topic list, at
any positions, changes neither what the decoding loop leaves in `uuid` and `node` nor
what `onPublication` does; so a list made of one identity topic with the non-empty
suffix `u` and of such strings decodes to the identity `u` and the default record, and
is ingested as such. -/
theorem unknown_topic_tolerance (P : Prefixes) (topics padded : List Str)
    (h : Padded P topics padded) :
    decodeLoop P padded = decodeLoop P topics ∧
    (∀ (m : Cache) (a p : Nat), onPublication P m a padded p = onPublication P m a topics p) ∧
    (∀ u : Str, u ≠ [] → topics = [P.dps_uuid_prefix ++ u] →
      decodeLoop P padded = some (u, {}) ∧
      ∀ (m : Cache) (a p : Nat),
        onPublication P m a padded p =
          some ((ingest m u {} a p).discovered_nodes_,
            [Event.lock] ++ (ingest m u {} a p).events ++ [Event.unlock])) := by
  have hd : decodeLoop P padded = decodeLoop P topics := decodeFrom_padded P topics padded h _
  refine ⟨hd, ?_, ?_⟩
  · intro m a p
    unfold onPublication
    rw [hd]
  · intro u hu ht
    have hu2 : decodeLoop P padded = some (u, {}) := by
      rw [hd, ht]
      exact decodeLoop_identity_only P u
    exact ⟨hu2, fun m a p => onPublication_eq_ingest P m a p padded u {} hu2 hu⟩

theorem unknown_topic_tolerance_witness :
    decodeLoop samplePrefixes [['x'], "uuid=u".toList, ['y', 'z']] =
      decodeLoop samplePrefixes ["uuid=u".toList] :=
  (unknown_topic_tolerance samplePrefixes ["uuid=u".toList]
    [['x'], "uuid=u".toList, ['y', 'z']]
    (Padded.pad ['x'] (by decide)
      (Padded.keep "uuid=u".toList (Padded.pad ['y', 'z'] (by decide) Padded.nil)))).1

/-- C19: one round of the decoding loop changes at most one of the locals, picked by the
first of the prefixes identity, namespace, name, subscriber, publisher, service that the
topic string contains: with the identity prefix only `uuid` is set; with the namespace
prefix and no identity prefix only `namespace_`; then only `name`; then one endpoint is
appended to `subscribers`, to `publishers` or to `services` alone; and with none of the
six prefixes nothing changes. -/
theorem prefix_priority (P : Prefixes) (st : Str × Node) (t : Str) :
    (P.dps_uuid_prefix <:+: t →
      ∃ pos, find t P.dps_uuid_prefix 0 = some pos ∧
        decodeStep P st t =
          some (substrFrom t (pos + P.dps_uuid_prefix.length), st.2)) ∧
    (¬ P.dps_uuid_prefix <:+: t → P.dps_namespace_prefix <:+: t →
      ∃ pos, find t P.dps_namespace_prefix 0 = some pos ∧
        decodeStep P st t =
          some (st.1, { st.2 with
            namespace_ := ['/'] ++ substrFrom t (pos + P.dps_namespace_prefix.length) })) ∧
    (¬ P.dps_uuid_prefix <:+: t → ¬ P.dps_namespace_prefix <:+: t →
      P.dps_name_prefix <:+: t →
      ∃ pos, find t P.dps_name_prefix 0 = some pos ∧
        decodeStep P st t =
          some (st.1, { st.2 with
            name := substrFrom t (pos + P.dps_name_prefix.length) })) ∧
    (¬ P.dps_uuid_prefix <:+: t → ¬ P.dps_namespace_prefix <:+: t →
      ¬ P.dps_name_prefix <:+: t → P.dps_subscriber_prefix <:+: t →
      ∃ e, process_topic_info t P.dps_subscriber_prefix {} = some (true, e) ∧
        decodeStep P st t =
          some (st.1, { st.2 with subscribers := st.2.subscribers ++ [e] })) ∧
    (¬ P.dps_uuid_prefix <:+: t → ¬ P.dps_namespace_prefix <:+: t →
      ¬ P.dps_name_prefix <:+: t → ¬ P.dps_subscriber_prefix <:+: t →
      P.dps_publisher_prefix <:+: t →
      ∃ e, process_topic_info t P.dps_publisher_prefix {} = some (true, e) ∧
        decodeStep P st t =
          some (st.1, { st.2 with publishers := st.2.publishers ++ [e] })) ∧
    (¬ P.dps_uuid_prefix <:+: t → ¬ P.dps_namespace_prefix <:+: t →
      ¬ P.dps_name_prefix <:+: t → ¬ P.dps_subscriber_prefix <:+: t →
      ¬ P.dps_publisher_prefix <:+: t → P.dps_service_prefix <:+: t →
      ∃ e, process_topic_info t P.dps_service_prefix {} = some (true, e) ∧
        decodeStep P st t =
          some (st.1, { st.2 with services := st.2.services ++ [e] })) ∧
    (Unrecognized P t → decodeStep P st t = some st) := by
  refine ⟨?_, ?_, ?_, ?_, ?_, ?_, decodeStep_unrecognized P st t⟩
  · intro h
    obtain ⟨pos, hpos⟩ := find_some_of_infix t _ h
    exact ⟨pos, hpos, by unfold decodeStep; rw [hpos]⟩
  · intro h1 h
    obtain ⟨pos, hpos⟩ := find_some_of_infix t _ h
    exact ⟨pos, hpos, by unfold decodeStep; rw [(find_eq_none_iff _ _).mpr h1, hpos]⟩
  · intro h1 h2 h
    obtain ⟨pos, hpos⟩ := find_some_of_infix t _ h
    exact ⟨pos, hpos, by
      unfold decodeStep
      rw [(find_eq_none_iff _ _).mpr h1, (find_eq_none_iff _ _).mpr h2, hpos]⟩
  · intro h1 h2 h3 h
    obtain ⟨e, he⟩ := process_topic_info_found t _ {} h
    exact ⟨e, he, by
      unfold decodeStep
      rw [(find_eq_none_iff _ _).mpr h1, (find_eq_none_iff _ _).mpr h2,
        (find_eq_none_iff _ _).mpr h3, he]⟩
  · intro h1 h2 h3 h4 h
    obtain ⟨e, he⟩ := process_topic_info_found t _ {} h
    exact ⟨e, he, by
      unfold decodeStep
      rw [(find_eq_none_iff _ _).mpr h1, (find_eq_none_iff _ _).mpr h2,
        (find_eq_none_iff _ _).mpr h3, process_topic_info_absent _ _ _ h4, he]⟩
  · intro h1 h2 h3 h4 h5 h
    obtain ⟨e, he⟩ := process_topic_info_found t _ {} h
    exact ⟨e, he, by
      unfold decodeStep
      rw [(find_eq_none_iff _ _).mpr h1, (find_eq_none_iff _ _).mpr h2,
        (find_eq_none_iff _ _).mpr h3, process_topic_info_absent _ _ _ h4,
        process_topic_info_absent _ _ _ h5, he]⟩

/-! ## The call of `_advertise` -/

theorem mem_events_advertise (r : IngestResult) :
    Event.advertise ∈ r.events ↔ r.advertised = true := by
  unfold IngestResult.events
  cases r.advertised <;> cases r.trigger <;> simp

theorem count_events_advertise (r : IngestResult) :
    r.events.count Event.advertise ≤ 1 := by
  unfold IngestResult.events
  cases r.advertised <;> cases r.trigger <;> decide

/-- C12: when the decoding loop leaves a non-empty `uuid`, `onPublication` calls
`_advertise` exactly when `uuid` has no entry in the map before the ingest and the UUID
of the publication differs from the UUID of the own advertisement; it calls it at most
once, and not at all for an identity that has an entry. -/
theorem self_announcement_on_discovery (P : Prefixes) (m : Cache) (a p : Nat)
    (topics : List Str) (uuid : Str) (node : Node)
    (hd : decodeLoop P topics = some (uuid, node)) (hne : uuid ≠ []) :
    ∃ m1 events, onPublication P m a topics p = some (m1, events) ∧
      (Event.advertise ∈ events ↔ SMap.find m uuid = none ∧ a ≠ p) ∧
      events.count Event.advertise ≤ 1 ∧
      (SMap.find m uuid ≠ none → Event.advertise ∉ events) := by
  have hiff : Event.advertise ∈
      [Event.lock] ++ (ingest m uuid node a p).events ++ [Event.unlock] ↔
      SMap.find m uuid = none ∧ a ≠ p := by
    rw [← ingest_advertised m uuid node a p, ← mem_events_advertise]
    simp
  refine ⟨_, _, onPublication_eq_ingest P m a p topics uuid node hd hne, hiff, ?_, ?_⟩
  · have := count_events_advertise (ingest m uuid node a p)
    simp only [List.count_append, List.count_singleton]
    simpa using this
  · intro hf hmem
    exact hf (hiff.mp hmem).1

theorem self_announcement_on_discovery_witness :
    ∃ m1 events,
      onPublication samplePrefixes [] 1 ["uuid=u".toList, "name=n".toList] 2 =
        some (m1, events) ∧
      (Event.advertise ∈ events ↔ SMap.find ([] : Cache) ['u'] = none ∧ 1 ≠ 2) ∧
      events.count Event.advertise ≤ 1 ∧
      (SMap.find ([] : Cache) ['u'] ≠ none → Event.advertise ∉ events) :=
  self_announcement_on_discovery samplePrefixes [] 1 2 ["uuid=u".toList, "name=n".toList]
    ['u'] { name := ['n'] } (by decide) (by decide)

/-! ## The leading slash -/

theorem process_topic_info_slash (topic_str prefix_ : Str) (t0 e : Topic)
    (h : process_topic_info topic_str prefix_ t0 = some (true, e)) :
    e.topic.head? = some '/' := by
  unfold process_topic_info at h
  split at h
  · simp only at h
    split at h
    · simp only [Option.some.injEq, Prod.mk.injEq, true_and] at h
      subst h
      simp only
      split <;> rfl
    · cases h
  · simp at h

theorem decodeStep_slashed (P : Prefixes) (st st1 : Str × Node) (topic : Str)
    (hs : decodeStep P st topic = some st1) (hp : st.2.Slashed) : st1.2.Slashed := by
  unfold decodeStep at hs
  obtain ⟨h0, h1, h2, h3⟩ := hp
  split at hs
  · cases hs; exact ⟨h0, h1, h2, h3⟩
  split at hs
  · cases hs; exact ⟨rfl, h1, h2, h3⟩
  split at hs
  · cases hs; exact ⟨h0, h1, h2, h3⟩
  split at hs
  · cases hs
  · rename_i e he
    cases hs
    exact ⟨h0, forall_mem_append_singleton h1 (process_topic_info_slash _ _ _ e he), h2, h3⟩
  split at hs
  · cases hs
  · rename_i e he
    cases hs
    exact ⟨h0, h1, forall_mem_append_singleton h2 (process_topic_info_slash _ _ _ e he), h3⟩
  split at hs
  · cases hs
  · rename_i e he
    cases hs
    exact ⟨h0, h1, h2, forall_mem_append_singleton h3 (process_topic_info_slash _ _ _ e he)⟩
  · cases hs; exact ⟨h0, h1, h2, h3⟩

theorem decodeFrom_slashed (P : Prefixes) : ∀ (topics : List Str) (st st1 : Str × Node),
    decodeFrom P st topics = some st1 → st.2.Slashed → st1.2.Slashed := by
  intro topics
  induction topics with
  | nil =>
    intro st st1 h hp
    simp only [decodeFrom, Option.some.injEq] at h
    rw [← h]
    exact hp
  | cons t rest ih =>
    intro st st1 h hp
    obtain ⟨st2, h2⟩ := decodeStep_returns P st t
    simp only [decodeFrom, h2] at h
    exact ih st2 st1 h (decodeStep_slashed P st st2 t h2 hp)

theorem decodeStep_namespace_kept (P : Prefixes) (st st1 : Str × Node) (topic : Str)
    (hs : decodeStep P st topic = some st1) (hn : ¬ P.dps_namespace_prefix <:+: topic) :
    st1.2.namespace_ = st.2.namespace_ := by
  unfold decodeStep at hs
  rw [(find_eq_none_iff _ _).mpr hn] at hs
  simp only at hs
  repeat' split at hs
  all_goals first
    | cases hs; rfl
    | cases hs

theorem decodeFrom_namespace_kept (P : Prefixes) : ∀ (topics : List Str) (st st1 : Str × Node),
    decodeFrom P st topics = some st1 → (∀ t ∈ topics, ¬ P.dps_namespace_prefix <:+: t) →
    st1.2.namespace_ = st.2.namespace_ := by
  intro topics
  induction topics with
  | nil =>
    intro st st1 h _
    simp only [decodeFrom, Option.some.injEq] at h
    rw [← h]
  | cons t rest ih =>
    intro st st1 h hn
    obtain ⟨st2, h2⟩ := decodeStep_returns P st t
    simp only [decodeFrom, h2] at h
    rw [ih st2 st1 h (fun x hx => hn x (List.mem_cons_of_mem _ hx))]
    exact decodeStep_namespace_kept P st st2 t h2 (hn t (List.mem_cons_self _ _))

/-- C13: in the record that the decoding loop leaves, the namespace begins with `/`, it
is `"/"` when no topic string contains the namespace prefix, and the topic name of every
subscriber, publisher and service begins with `/`. -/
theorem leading_slash_restored (P : Prefixes) (topics : List Str) (uuid : Str) (node : Node)
    (h : decodeLoop P topics = some (uuid, node)) :
    node.namespace_.head? = some '/' ∧
    ((∀ t ∈ topics, ¬ P.dps_namespace_prefix <:+: t) → node.namespace_ = ['/']) ∧
    (∀ e ∈ node.subscribers, e.topic.head? = some '/') ∧
    (∀ e ∈ node.publishers, e.topic.head? = some '/') ∧
    (∀ e ∈ node.services, e.topic.head? = some '/') := by
  have hs : node.Slashed :=
    decodeFrom_slashed P topics _ _ h
      ⟨rfl, fun _ h => absurd h (List.not_mem_nil _), fun _ h => absurd h (List.not_mem_nil _),
        fun _ h => absurd h (List.not_mem_nil _)⟩
  refine ⟨hs.1, ?_, hs.2.1, hs.2.2.1, hs.2.2.2⟩
  intro hn
  exact decodeFrom_namespace_kept P topics _ _ h hn

theorem leading_slash_restored_witness :
    decodeLoop samplePrefixes
        ["uuid=u".toList, "namespace=w".toList, "publisher=a&types=T".toList] =
      some (['u'],
        { namespace_ := ['/', 'w'],
          publishers := [{ topic := ['/', 'a'], types := [['T']] }] }) ∧
    ∀ e ∈ ({ namespace_ := ['/', 'w'],
             publishers := [{ topic := ['/', 'a'], types := [['T']] }] } : Node).publishers,
      e.topic.head? = some '/' :=
  ⟨by decide,
    (leading_slash_restored samplePrefixes
      ["uuid=u".toList, "namespace=w".toList, "publisher=a&types=T".toList] ['u']
      { namespace_ := ['/', 'w'], publishers := [{ topic := ['/', 'a'], types := [['T']] }] }
      (by decide)).2.2.2.1⟩

/-! ## The comma split -/

theorem splitComma_ne_nil : ∀ s : Str, splitComma s ≠ [] := by
  intro s
  induction s with
  | nil => simp [splitComma]
  | cons c t ih =>
    unfold splitComma
    split
    · simp
    · split <;> simp

theorem splitComma_of_not_mem : ∀ a : Str, ',' ∉ a → splitComma a = [a] := by
  intro a
  induction a with
  | nil => intro _; rfl
  | cons c t ih =>
    intro h
    rw [List.mem_cons, not_or] at h
    have hc : c ≠ ',' := fun e => h.1 e.symm
    rw [splitComma, if_neg hc, ih h.2]

theorem splitComma_append_comma (r : Str) : ∀ a : Str, ',' ∉ a →
    splitComma (a ++ ',' :: r) = a :: splitComma r := by
  intro a
  induction a with
  | nil => intro _; simp [splitComma]
  | cons c t ih =>
    intro h
    rw [List.mem_cons, not_or] at h
    have hc : c ≠ ',' := fun e => h.1 e.symm
    rw [List.cons_append, splitComma, if_neg hc, ih h.2]

theorem splitComma_length : ∀ s : Str, (splitComma s).length = s.count ',' + 1 := by
  intro s
  induction s with
  | nil => rfl
  | cons c t ih =>
    by_cases hc : c = ','
    · subst hc
      simp [splitComma, ih]
    · rw [splitComma, if_neg hc, List.count_cons_of_ne (fun e => hc e.symm), ← ih]
      cases hs : splitComma t with
      | nil => exact absurd hs (splitComma_ne_nil t)
      | cons piece rest => rfl

theorem splitComma_trailing : ∀ s : Str, splitComma (s ++ [',']) = splitComma s ++ [[]] := by
  intro s
  induction s with
  | nil => rfl
  | cons c t ih =>
    by_cases hc : c = ','
    · subst hc
      simp [splitComma, ih]
    · rw [List.cons_append, splitComma, if_neg hc, ih, splitComma, if_neg hc]
      cases hs : splitComma t with
      | nil => exact absurd hs (splitComma_ne_nil t)
      | cons piece rest => rfl

theorem splitComma_pieces : ∀ s : Str, ∀ x ∈ splitComma s, ',' ∉ x := by
  intro s
  induction s with
  | nil => intro x hx; simp [splitComma] at hx; simp [hx]
  | cons c t ih =>
    intro x hx
    by_cases hc : c = ','
    · subst hc
      simp only [splitComma, if_true, List.mem_cons] at hx
      rcases hx with rfl | hx
      · simp
      · exact ih x hx
    · rw [splitComma, if_neg hc] at hx
      cases hs : splitComma t with
      | nil => exact absurd hs (splitComma_ne_nil t)
      | cons piece rest =>
        rw [hs] at hx ih
        simp only [List.mem_cons] at hx
        rcases hx with rfl | hx
        · rw [List.mem_cons, not_or]
          exact ⟨fun e => hc e.symm, ih piece (List.mem_cons_self _ _)⟩
        · exact ih x (List.mem_cons_of_mem _ hx)

theorem joinTypes_cons_of_ne_nil (a : Str) (l : List Str) (h : l ≠ []) :
    joinTypes (a :: l) = a ++ ',' :: joinTypes l := by
  cases l with
  | nil => exact absurd rfl h
  | cons b r => exact joinTypes_cons_cons a b r

theorem joinTypes_splitComma : ∀ s : Str, joinTypes (splitComma s) = s := by
  intro s
  induction s with
  | nil => rfl
  | cons c t ih =>
    by_cases hc : c = ','
    · subst hc
      rw [splitComma, if_pos rfl, joinTypes_cons_of_ne_nil _ _ (splitComma_ne_nil t), ih]
      rfl
    · rw [splitComma, if_neg hc]
      cases hs : splitComma t with
      | nil => exact absurd hs (splitComma_ne_nil t)
      | cons piece rest =>
        rw [hs] at ih
        simp only
        cases rest with
        | nil =>
          simp only [joinTypes] at ih ⊢
          rw [ih]
        | cons b r =>
          rw [joinTypes_cons_cons] at ih ⊢
          rw [List.cons_append, ih]

theorem findAux_comma_decomp : ∀ (s : Str) (i e : Nat), findAux [','] s i = some e →
    ∃ a r, s = a ++ ',' :: r ∧ ',' ∉ a ∧ e = i + a.length := by
  intro s
  induction s with
  | nil => intro i e h; simp [findAux] at h
  | cons c t ih =>
    intro i e h
    rw [findAux] at h
    split at h
    · rename_i hc
      cases h
      have : c = ',' := by
        have h2 : ',' = c := by simpa [List.isPrefixOf] using hc
        exact h2.symm
      subst this
      exact ⟨[], t, rfl, by simp, rfl⟩
    · rename_i hc
      obtain ⟨a, r, hs, ha, he⟩ := ih (i + 1) e h
      refine ⟨c :: a, r, by rw [hs]; rfl, ?_, by simp only [List.length_cons]; omega⟩
      rw [List.mem_cons, not_or]
      refine ⟨?_, ha⟩
      intro hcc
      apply hc
      rw [← hcc]
      simp [List.isPrefixOf]

theorem typesLoop_splitComma (s : Str) (hs : s.length < SIZE_MOD) : ∀ (fuel pos : Nat)
    (acc : List Str), pos ≤ s.length → s.length + 1 ≤ fuel + pos →
    typesLoop s fuel (some pos) acc = some (acc ++ splitComma (s.drop pos)) := by
  intro fuel
  induction fuel with
  | zero => intro pos acc h1 h2; omega
  | succ n ih =>
    intro pos acc hpos hfuel
    rw [typesLoop]
    cases hf : find s [','] pos with
    | none =>
      simp only
      have hno : ',' ∉ s.drop pos := find_comma_absent s pos hf
      rw [splitComma_of_not_mem _ hno]
      cases n <;> rfl
    | some e =>
      simp only
      have hf2 := hf
      unfold find at hf2
      rw [if_pos hpos] at hf2
      obtain ⟨a, r, hd, ha, he⟩ := findAux_comma_decomp _ _ _ hf2
      have hlen : (s.drop pos).length = a.length + 1 + r.length := by
        rw [hd]
        simp only [List.length_append, List.length_cons]
        omega
      rw [List.length_drop] at hlen
      have hsub : substr s pos (sizeSub e pos) = a := by
        rw [he, sizeSub_of_le _ _ (by omega) (by omega)]
        unfold substr
        rw [hd, Nat.add_sub_cancel_left, List.take_left]
      have hrest : s.drop (e + 1) = r := by
        rw [he, Nat.add_assoc, ← List.drop_drop, hd]
        have : a ++ ',' :: r = (a ++ [',']) ++ r := by simp
        rw [this]
        have hl : a.length + 1 = (a ++ [',']).length := by simp
        rw [hl, List.drop_left]
      rw [hsub, ih (e + 1) (acc ++ [a]) (by omega) (by omega), hrest, hd,
        splitComma_append_comma r a ha]
      simp

/-! ## What `process_topic_info` returns -/

theorem process_topic_info_eq (s p : Str) (pos0 : Nat) (hs : s.length < SIZE_MOD)
    (hp : find s p 0 = some pos0) :
    process_topic_info s p {} = some (true,
      match find s typesMarker 0 with
      | some end_pos =>
        { topic := ['/'] ++ substr s (pos0 + p.length) (sizeSub end_pos (pos0 + p.length)),
          types := splitComma (s.drop (end_pos + typesMarker.length)) }
      | none =>
        { topic := ['/'] ++ substrFrom s (pos0 + p.length),
          types := splitComma (s.drop (pos0 + p.length)) }) := by
  have hb := find_bounds s p 0 pos0 hp
  unfold process_topic_info
  rw [hp]
  simp only
  cases hm : find s typesMarker 0 with
  | none =>
    simp only
    rw [typesLoop_splitComma s hs _ _ _ (by omega) (by omega)]
    rfl
  | some end_pos =>
    have hb2 := find_bounds s typesMarker 0 end_pos hm
    simp only
    rw [typesLoop_splitComma s hs _ _ _ (by omega) (by omega)]
    rfl

theorem process_topic_info_true (s p : Str) (e : Topic)
    (h : process_topic_info s p {} = some (true, e)) : ∃ pos0, find s p 0 = some pos0 := by
  cases hf : find s p 0 with
  | some pos0 => exact ⟨pos0, rfl⟩
  | none =>
    unfold process_topic_info at h
    rw [hf] at h
    simp at h

/-- C15: for a topic string `<prefix><name>&types=<s>` with no `"&types="` in the text
before the marker, `process_topic_info` returns `true` with the topic name `/<name>` and
with the types that are the pieces of `s` between its commas, in order and empty pieces
kept: the pieces have no comma and joined by commas give `s` again, there is one piece
more than `s` has commas, and a comma at the end yields an empty last type. -/
theorem type_list_total_comma_split (prefix_ name s : Str)
    (hm : ¬ typesMarker <:+: prefix_ ++ name)
    (hlen : (prefix_ ++ name ++ typesMarker ++ s).length < SIZE_MOD) :
    process_topic_info (prefix_ ++ name ++ typesMarker ++ s) prefix_ {} =
      some (true, { topic := '/' :: name, types := splitComma s }) ∧
    (∀ x ∈ splitComma s, ',' ∉ x) ∧
    joinTypes (splitComma s) = s ∧
    (splitComma s).length = s.count ',' + 1 ∧
    splitComma (s ++ [',']) = splitComma s ++ [[]] := by
  refine ⟨?_, splitComma_pieces s, joinTypes_splitComma s, splitComma_length s,
    splitComma_trailing s⟩
  have hf1 : find (prefix_ ++ name ++ typesMarker ++ s) prefix_ 0 = some 0 := by
    rw [List.append_assoc, List.append_assoc]
    exact find_append_self _ _
  have hf2 : find (prefix_ ++ name ++ typesMarker ++ s) typesMarker 0 =
      some (prefix_ ++ name).length := find_marker _ _ hm
  rw [process_topic_info_eq _ _ 0 hlen hf1, hf2]
  simp only [Option.some.injEq, Prod.mk.injEq, true_and, Topic.mk.injEq]
  constructor
  · rw [Nat.zero_add, List.length_append, sizeSub_of_le _ _ (by omega) (by
      simp only [List.length_append] at hlen
      omega), Nat.add_sub_cancel_left]
    unfold substr
    rw [List.append_assoc, List.append_assoc, List.drop_left, List.take_left]
    rfl
  · have : (prefix_ ++ name).length + typesMarker.length =
        (prefix_ ++ name ++ typesMarker).length := by
      simp only [List.length_append]
    rw [this, List.drop_left]

theorem type_list_total_comma_split_witness :
    process_topic_info ("publisher=" ++ "chatter" ++ "&types=" ++ "A,,B,").toList
        "publisher=".toList {} =
      some (true, { topic := "/chatter".toList, types := [['A'], [], ['B'], []] }) := by
  have h := (type_list_total_comma_split "publisher=".toList "chatter".toList "A,,B,".toList
    (by decide) (by decide)).1
  exact h

/-- C18: an endpoint for which `process_topic_info` returns `true` has at least one
type; when the topic string has no `"&types="`, its types are the comma split of the
text after the prefix, the same text that follows `/` in its topic name; and when the
first `"&types="` ends the string, its only type is the empty string. -/
theorem decoded_types_never_empty (topic_str prefix_ : Str) (e : Topic)
    (h : process_topic_info topic_str prefix_ {} = some (true, e))
    (hlen : topic_str.length < SIZE_MOD) :
    e.types ≠ [] ∧
    (¬ typesMarker <:+: topic_str →
      ∃ pos0, find topic_str prefix_ 0 = some pos0 ∧
        e.types = splitComma (topic_str.drop (pos0 + prefix_.length)) ∧
        e.topic = '/' :: topic_str.drop (pos0 + prefix_.length)) ∧
    (∀ end_pos, find topic_str typesMarker 0 = some end_pos →
      end_pos + typesMarker.length = topic_str.length → e.types = [[]]) := by
  obtain ⟨pos0, hp⟩ := process_topic_info_true topic_str prefix_ e h
  have heq := process_topic_info_eq topic_str prefix_ pos0 hlen hp
  rw [h] at heq
  simp only [Option.some.injEq, Prod.mk.injEq, true_and] at heq
  refine ⟨?_, ?_, ?_⟩
  · rw [heq]
    split
    · exact splitComma_ne_nil _
    · exact splitComma_ne_nil _
  · intro hm
    rw [(find_eq_none_iff _ _).mpr hm] at heq
    exact ⟨pos0, hp, by rw [heq], by rw [heq]; rfl⟩
  · intro end_pos hf hend
    rw [hf] at heq
    rw [heq]
    simp only
    rw [hend, List.drop_length]
    rfl

theorem decoded_types_never_empty_witness :
    process_topic_info "publisher=a,b".toList "publisher=".toList {} =
      some (true, { topic := "/a,b".toList, types := [['a'], ['b']] }) ∧
    ({ topic := "/a,b".toList, types := [['a'], ['b']] } : Topic).types ≠ [] :=
  ⟨by decide,
    (decoded_types_never_empty "publisher=a,b".toList "publisher=".toList
      { topic := "/a,b".toList, types := [['a'], ['b']] } (by decide) (by decide)).1⟩

theorem substr_sizeSub_wrap (s : Str) (pos end_pos : Nat) (h1 : end_pos < pos)
    (h2 : pos ≤ s.length) (h3 : s.length < SIZE_MOD) :
    substr s pos (sizeSub end_pos pos) = s.drop pos := by
  unfold substr
  apply List.take_of_length_le
  rw [List.length_drop]
  unfold sizeSub
  unfold SIZE_MOD at h3 ⊢
  omega

/-- C14, the code at the failing input: for the topic string
`&types=<prefix>a&types=T`, in which the first occurrence of the prefix is the one
written and `"&types="` also stands before it, `process_topic_info` sets the topic name
to `/a&types=T`, the whole text after the prefix, and takes the types from the text
after the first marker, the prefix included. -/
theorem marker_before_prefix (prefix_ : Str)
    (hp : find (typesMarker ++ prefix_ ++ ['a'] ++ typesMarker ++ ['T']) prefix_ 0 =
      some typesMarker.length)
    (hlen : (typesMarker ++ prefix_ ++ ['a'] ++ typesMarker ++ ['T']).length < SIZE_MOD) :
    process_topic_info (typesMarker ++ prefix_ ++ ['a'] ++ typesMarker ++ ['T']) prefix_ {} =
      some (true,
        { topic := ['/', 'a'] ++ typesMarker ++ ['T'],
          types := splitComma (prefix_ ++ ['a'] ++ typesMarker ++ ['T']) }) := by
  have hm : find (typesMarker ++ prefix_ ++ ['a'] ++ typesMarker ++ ['T']) typesMarker 0 =
      some 0 := by
    simp only [List.append_assoc]
    exact find_append_self _ _
  rw [process_topic_info_eq _ _ _ hlen hp, hm]
  simp only [Option.some.injEq, Prod.mk.injEq, true_and, Topic.mk.injEq]
  constructor
  · rw [substr_sizeSub_wrap _ _ _ (by simp [typesMarker])
      (by simp only [List.length_append, List.length_cons, List.length_nil]; omega) hlen]
    have : typesMarker.length + prefix_.length = (typesMarker ++ prefix_).length := by
      simp only [List.length_append]
    rw [this]
    simp only [List.append_assoc]
    rw [← List.append_assoc typesMarker prefix_, List.drop_left]
    rfl
  · rw [Nat.zero_add]
    simp only [List.append_assoc]
    rw [List.drop_left]

theorem marker_before_prefix_witness :
    process_topic_info "&types=publisher=a&types=T".toList "publisher=".toList {} =
      some (true,
        { topic := "/a&types=T".toList, types := ["publisher=a&types=T".toList] }) := by
  have h := marker_before_prefix "publisher=".toList (by decide) (by decide)
  exact h

/-! ## The lock -/

theorem lockHeld_of_split (mid pre post : List Event) (e : Event)
    (h1 : Event.lock ∉ mid) (h2 : Event.unlock ∉ mid) (he1 : e ≠ Event.lock)
    (he2 : e ≠ Event.unlock)
    (h : Event.lock :: (mid ++ [Event.unlock]) = pre ++ e :: post) :
    lockHeld pre = true ∧ post ≠ [] := by
  cases pre with
  | nil =>
    simp only [List.nil_append, List.cons.injEq] at h
    exact absurd h.1.symm he1
  | cons x pre1 =>
    simp only [List.cons_append, List.cons.injEq] at h
    obtain ⟨hx, h⟩ := h
    subst hx
    rw [List.append_eq_append_iff] at h
    rcases h with ⟨a1, _, hb⟩ | ⟨c1, hc, hd⟩
    · exfalso
      cases a1 with
      | nil =>
        simp only [List.nil_append, List.cons.injEq] at hb
        exact he2 hb.1.symm
      | cons y a2 =>
        simp only [List.cons_append, List.cons.injEq] at hb
        have := hb.2
        cases a2 <;> simp at this
    · cases c1 with
      | nil =>
        simp only [List.nil_append, List.cons.injEq] at hd
        exact absurd hd.1 he2
      | cons y c2 =>
        have hsub : ∀ z ∈ pre1, z ∈ mid := fun z hz => by
          rw [hc]
          exact List.mem_append_left _ hz
        have hl : pre1.count Event.lock = 0 :=
          List.count_eq_zero.mpr (fun hm => h1 (hsub _ hm))
        have hu : pre1.count Event.unlock = 0 :=
          List.count_eq_zero.mpr (fun hm => h2 (hsub _ hm))
        simp only [List.cons_append, List.cons.injEq] at hd
        refine ⟨?_, ?_⟩
        · unfold lockHeld
          simp [List.count_cons, hl, hu]
        · rw [hd.2]
          simp

theorem onPublication_events (P : Prefixes) (m : Cache) (a p : Nat) (topics : List Str)
    (r : Cache × List Event) (h : onPublication P m a topics p = some r) :
    ∃ mid, r.2 = Event.lock :: (mid ++ [Event.unlock]) ∧ Event.lock ∉ mid ∧
      Event.unlock ∉ mid := by
  unfold onPublication at h
  split at h
  · cases h
  · split at h
    · cases h
      exact ⟨[], rfl, by simp, by simp⟩
    · rename_i uuid node _ _
      cases h
      refine ⟨(ingest m uuid node a p).events, by simp, ?_, ?_⟩
      · unfold IngestResult.events
        cases (ingest m uuid node a p).advertised <;>
          cases (ingest m uuid node a p).trigger <;> simp
      · unfold IngestResult.events
        cases (ingest m uuid node a p).advertised <;>
          cases (ingest m uuid node a p).trigger <;> simp

/-- C16, where the claim fails: for the publication of an unseen identity that comes
from another node, whatever the prefixes are, `_advertise` is called after the mutex was
locked and before it is unlocked. -/
theorem advertise_called_under_lock_example :
    (∀ P : Prefixes,
      (onPublication P [] 1 [P.dps_uuid_prefix ++ ['v'], P.dps_uuid_prefix ++ ['u']] 2).map
          (fun r => r.2) =
        some ([Event.lock] ++ Event.advertise :: [Event.unlock])) ∧
    lockHeld [Event.lock] = true := by
  refine ⟨?_, by decide⟩
  intro P
  have hd : decodeLoop P [P.dps_uuid_prefix ++ ['v'], P.dps_uuid_prefix ++ ['u']] =
      some (['u'], {}) := by
    simp [decodeLoop, decodeFrom, decodeStep_identity]
  rw [onPublication_eq_ingest P [] 1 2 _ ['u'] {} hd (by simp)]
  decide

/-- C16, as amended: in every execution of `onPublication` the mutex is locked first and
unlocked last, and each call of `_advertise` or of `rmw_trigger_guard_condition` is made
while the mutex is held. -/
theorem advertise_called_under_lock (P : Prefixes) (m : Cache) (a p : Nat) (topics : List Str)
    (r : Cache × List Event) (h : onPublication P m a topics p = some r) :
    (∃ mid, r.2 = Event.lock :: (mid ++ [Event.unlock]) ∧ Event.lock ∉ mid ∧
      Event.unlock ∉ mid) ∧
    (∀ pre post, r.2 = pre ++ Event.advertise :: post → lockHeld pre = true ∧ post ≠ []) ∧
    (∀ pre post, r.2 = pre ++ Event.trigger_guard_condition :: post →
      lockHeld pre = true ∧ post ≠ []) := by
  obtain ⟨mid, hr, h1, h2⟩ := onPublication_events P m a p topics r h
  refine ⟨⟨mid, hr, h1, h2⟩, ?_, ?_⟩
  · intro pre post hs
    rw [hr] at hs
    exact lockHeld_of_split mid pre post _ h1 h2 (by decide) (by decide) hs
  · intro pre post hs
    rw [hr] at hs
    exact lockHeld_of_split mid pre post _ h1 h2 (by decide) (by decide) hs

theorem advertise_called_under_lock_witness :
    lockHeld [Event.lock] = true ∧ [Event.trigger_guard_condition, Event.unlock] ≠ [] :=
  (advertise_called_under_lock samplePrefixes [] 1 2 ["uuid=u".toList, "name=n".toList]
    ([(['u'], { name := ['n'] })],
      [Event.lock, Event.advertise, Event.trigger_guard_condition, Event.unlock])
    (by decide)).2.1 [Event.lock] [Event.trigger_guard_condition, Event.unlock] rfl

/-! ## Counts and the topic view -/

theorem count_if_pos_iff {α : Type} (p : α → Bool) (l : List α) :
    0 < count_if p l ↔ ∃ e ∈ l, p e = true := by
  rw [count_if_eq, List.length_pos]
  constructor
  · intro h
    obtain ⟨e, he⟩ := List.exists_mem_of_ne_nil _ h
    exact ⟨e, (List.mem_filter.mp he).1, (List.mem_filter.mp he).2⟩
  · rintro ⟨e, he, hp⟩
    exact List.ne_nil_of_mem (List.mem_filter.mpr ⟨he, hp⟩)

theorem sum_map_pos_iff {α : Type} (g : α → Nat) : ∀ l : List α,
    0 < (l.map g).sum ↔ ∃ x ∈ l, 0 < g x := by
  intro l
  induction l with
  | nil => simp only [List.map_nil, List.sum_nil, Nat.lt_irrefl, List.not_mem_nil, false_and,
      exists_false]
  | cons x t ih =>
    simp only [List.map_cons, List.sum_cons, List.mem_cons, exists_eq_or_imp]
    rw [← ih]
    omega

theorem count_fold_pos_iff (m : Cache) (sel : Node → List Topic) (t : Str) :
    0 < m.foldl
        (fun count it =>
          count + count_if (fun e : Topic => decide (e.topic = t)) (sel it.2)) 0 ↔
      ∃ it ∈ m, ∃ e ∈ sel it.2, e.topic = t := by
  rw [count_loop (fun it : Str × Node =>
    count_if (fun e : Topic => decide (e.topic = t)) (sel it.2)), Nat.zero_add, sum_map_pos_iff]
  constructor
  · rintro ⟨it, hit, hpos⟩
    obtain ⟨e, he, hp⟩ := (count_if_pos_iff _ _).mp hpos
    exact ⟨it, hit, e, he, by simpa using hp⟩
  · rintro ⟨it, hit, e, he, hp⟩
    exact ⟨it, hit, (count_if_pos_iff _ _).mpr ⟨e, he, by simpa using hp⟩⟩

/-- C20: a topic name is a key of the map that `get_topic_names_and_types` returns
exactly when `count_subscribers`, `count_publishers` and `count_services` for it add up
to more than zero. -/
theorem counts_agree_with_topic_view (m : Cache) (t : Str) :
    (SMap.find (get_topic_names_and_types m) t).isSome = true ↔
      0 < count_subscribers m t + count_publishers m t + count_services m t := by
  have hview : TopicView
      (fun e => ∃ it ∈ m, e ∈ it.2.subscribers ∨ e ∈ it.2.publishers ∨ e ∈ it.2.services)
      (get_topic_names_and_types m) := by
    refine TopicView.congr ?_ (get_topic_names_and_types_loop m _ [] TopicView.empty)
    intro e
    simp only [false_or]
  have hs : 0 < count_subscribers m t ↔ ∃ it ∈ m, ∃ e ∈ it.2.subscribers, e.topic = t :=
    count_fold_pos_iff m (fun n => n.subscribers) t
  have hp : 0 < count_publishers m t ↔ ∃ it ∈ m, ∃ e ∈ it.2.publishers, e.topic = t :=
    count_fold_pos_iff m (fun n => n.publishers) t
  have hv : 0 < count_services m t ↔ ∃ it ∈ m, ∃ e ∈ it.2.services, e.topic = t :=
    count_fold_pos_iff m (fun n => n.services) t
  have hsum : 0 < count_subscribers m t + count_publishers m t + count_services m t ↔
      (0 < count_subscribers m t ∨ 0 < count_publishers m t ∨ 0 < count_services m t) := by
    omega
  rw [(hview.2 t).1, hsum, hs, hp, hv]
  constructor
  · rintro ⟨e, ⟨it, hit, h1 | h1 | h1⟩, het⟩
    · exact Or.inl ⟨it, hit, e, h1, het⟩
    · exact Or.inr (Or.inl ⟨it, hit, e, h1, het⟩)
    · exact Or.inr (Or.inr ⟨it, hit, e, h1, het⟩)
  · rintro (⟨it, hit, e, h1, het⟩ | ⟨it, hit, e, h1, het⟩ | ⟨it, hit, e, h1, het⟩)
    · exact ⟨e, ⟨it, hit, Or.inl h1⟩, het⟩
    · exact ⟨e, ⟨it, hit, Or.inr (Or.inl h1)⟩, het⟩
    · exact ⟨e, ⟨it, hit, Or.inr (Or.inr h1)⟩, het⟩

/-! ## The round trip under the premises of the specification -/

theorem not_marker_infix_append (p x : Str) (hp : '&' ∉ p) (hx : ¬ typesMarker <:+: x) :
    ¬ typesMarker <:+: p ++ x := by
  induction p with
  | nil => exact hx
  | cons c t ih =>
    rw [List.mem_cons, not_or] at hp
    rw [List.cons_append, List.infix_cons_iff, not_or]
    refine ⟨?_, ih hp.2⟩
    intro hpre
    have := List.isPrefixOf_iff_prefix.mpr hpre
    simp only [typesMarker, List.isPrefixOf, Bool.and_eq_true, beq_iff_eq] at this
    exact hp.1 this.1

theorem not_marker_infix_stripSlash (x : Str) (hx : ¬ typesMarker <:+: x) :
    ¬ typesMarker <:+: stripSlash x := by
  intro h
  apply hx
  unfold stripSlash at h
  split at h
  · exact List.infix_cons h
  · exact h

theorem not_marker_of_no_ampersand (prefix_ : Str) (e : Topic) (hamp : '&' ∉ prefix_)
    (h : ¬ typesMarker <:+: e.topic) : ¬ typesMarker <:+: prefix_ ++ stripSlash e.topic :=
  not_marker_infix_append _ _ hamp (not_marker_infix_stripSlash _ h)

end RmwDps
